import Mathlib

/-!
Verification of the ML-VIS algorithm engines.

Each namespace below is a shallow embedding of one algorithm engine of the
repository (K-Means, decision tree / random forest, linear regression,
DBSCAN, SOM, perceptron/MLP, SVM).  JavaScript floating-point numbers are
modelled by an arbitrary linear ordered field (instantiated at ℚ for
concrete evaluations); ambient calls to Math.random are modelled by oracle
parameters (a function supplying the drawn values), and transcendental
functions (Math.exp, Math.hypot) by function parameters, so that every
theorem quantifies over all possible draws.
-/

namespace MLVIS

/-- Iris species enumeration (the dataset's species field takes exactly
these three values). -/
inductive Species where
  | setosa
  | versicolor
  | virginica
deriving DecidableEq, Repr

/-- The labelMap of the tree components: setosa ↦ 0, versicolor ↦ 1,
virginica ↦ 2. -/
def labelMap : Species → ℤ
  | Species.setosa => 0
  | Species.versicolor => 1
  | Species.virginica => 2

/-- A sample of the Iris dataset: two features and a species label
(the Point type of the tree components). -/
structure IrisPoint (α : Type) where
  sepalLength : α
  sepalWidth : α
  species : Species
deriving DecidableEq, Repr

/-- The Node record of the tree components: all fields nullable, a leaf is
a node whose left and right children are null. -/
inductive Node (α : Type) where
  | mk (feature : Option ℕ) (threshold : Option α) (impurity : Option α)
      (left : Option (Node α)) (right : Option (Node α)) (value : Option ℤ)

namespace Node

variable {α : Type}

def feature : Node α → Option ℕ
  | mk f _ _ _ _ _ => f

def threshold : Node α → Option α
  | mk _ t _ _ _ _ => t

def impurity : Node α → Option α
  | mk _ _ i _ _ _ => i

def left : Node α → Option (Node α)
  | mk _ _ _ l _ _ => l

def right : Node α → Option (Node α)
  | mk _ _ _ _ r _ => r

def value : Node α → Option ℤ
  | mk _ _ _ _ _ v => v

end Node

namespace Tree

variable {α : Type} [LinearOrderedField α]

/-- Feature access used throughout the tree code:
feature 0 is sepalLength, any other feature selects sepalWidth
(the code tests feature === 0). -/
def featVal (feature : ℕ) (p : IrisPoint α) : α :=
  if feature = 0 then p.sepalLength else p.sepalWidth

/-- calculateGini of the tree components: 1 − Σ p_c² over the empirical
class frequencies of the distinct labels present. -/
def calculateGini (labels : List ℤ) : α :=
  1 - ((labels.dedup).map
    (fun l => ((labels.count l : α) / (labels.length : α)) ^ 2)).sum

/-- Math.round of JavaScript: rounds half away from zero toward +∞,
that is ⌊q + 1/2⌋. -/
def mathRound (q : ℚ) : ℤ :=
  ⌊q + 1 / 2⌋

/-- The most-common-class computation of the forest component's buildTree:
iterate over the distinct labels in ascending order (JavaScript object
integer keys enumerate in ascending numeric order) and keep the first label
whose count strictly exceeds the running maximum, starting from
(maxCount, maxLabel) = (0, 0). -/
def mostCommonLabel (labels : List ℤ) : ℤ :=
  (((labels.dedup).insertionSort (· ≤ ·)).foldl
    (fun acc l =>
      if labels.count l > acc.1 then (labels.count l, l) else acc)
    ((0 : ℕ), (0 : ℤ))).2

/-- Accumulator of findBestSplit: bestGain, bestFeature, bestThreshold,
bestImpurity. -/
structure BestAcc (α : Type) where
  bestGain : α
  bestFeature : Option ℕ
  bestThreshold : Option α
  bestImpurity : α
deriving DecidableEq

/-- The split record returned by findBestSplit. -/
structure SplitInfo (α : Type) where
  feature : Option ℕ
  threshold : Option α
  impurity : Option α
deriving DecidableEq

/-- Distinct observed values of a feature, sorted ascending:
[...new Set(data.map(value))].sort((a, b) => a - b). -/
def sortedVals (data : List (IrisPoint α)) (feature : ℕ) : List α :=
  ((data.map (featVal feature)).dedup).insertionSort (· ≤ ·)

/-- Candidate thresholds of a feature: the midpoints of adjacent entries of
the ascending list of distinct observed values. -/
def midpoints (vals : List α) : List α :=
  (vals.zip vals.tail).map (fun ab => (ab.1 + ab.2) / 2)

/-- Information gain of a candidate threshold (parent impurity minus
child-size-weighted impurity), as computed in the loop body of
findBestSplit. -/
def gainOf (impurityFn : List ℤ → α) (data : List (IrisPoint α))
    (feature : ℕ) (threshold : α) : α :=
  let leftPart := data.filter (fun p => featVal feature p ≤ threshold)
  let rightPart := data.filter (fun p => ¬ featVal feature p ≤ threshold)
  let currentImpurity := impurityFn (data.map (fun p => labelMap p.species))
  let leftImp := impurityFn (leftPart.map (fun p => labelMap p.species))
  let rightImp := impurityFn (rightPart.map (fun p => labelMap p.species))
  currentImpurity -
    (((leftPart.length : α) / (data.length : α)) * leftImp +
      ((rightPart.length : α) / (data.length : α)) * rightImp)

/-- Inner loop body of findBestSplit for one candidate threshold: skip the
threshold if either partition is empty, otherwise replace the running best
exactly when the gain strictly exceeds it. -/
def splitStep (impurityFn : List ℤ → α) (data : List (IrisPoint α))
    (feature : ℕ) (acc : BestAcc α) (threshold : α) : BestAcc α :=
  let leftPart := data.filter (fun p => featVal feature p ≤ threshold)
  let rightPart := data.filter (fun p => ¬ featVal feature p ≤ threshold)
  if leftPart.length = 0 ∨ rightPart.length = 0 then acc
  else
    let gain := gainOf impurityFn data feature threshold
    if gain > acc.bestGain then
      ⟨gain, some feature, some threshold,
        impurityFn (data.map (fun p => labelMap p.species))⟩
    else acc

/-- findBestSplit of the tree components, parametrized by the impurity
function selected from the criterion string and by the list of candidate
features ([0, 1] for the single tree; the random feature subset for forest
trees).  Returns null when fewer than minSamplesSplit samples are present
or when no candidate has strictly positive gain. -/
def findBestSplit (impurityFn : List ℤ → α) (data : List (IrisPoint α))
    (minSamplesSplit : ℕ) (features : List ℕ) : Option (SplitInfo α) :=
  if data.length < minSamplesSplit then none
  else
    let currentImpurity := impurityFn (data.map (fun p => labelMap p.species))
    let final := features.foldl
      (fun acc feature =>
        (midpoints (sortedVals data feature)).foldl
          (splitStep impurityFn data feature) acc)
      ⟨0, none, none, currentImpurity⟩
    if final.bestGain = 0 then none
    else some ⟨final.bestFeature, final.bestThreshold, some final.bestImpurity⟩

/-- buildTree of the forest component (part_000): a leaf stores the
most common class of the partition and the partition's impurity under the
active criterion; an internal node stores the selected split and recurses
on the two partitions.  The per-node random feature subset is supplied by
the oracle pick (indexed by the node's data and depth), modelling the
selectRandomFeatureSubset call. -/
def buildTree (impurityFn : List ℤ → α)
    (pick : List (IrisPoint α) → ℕ → List ℕ)
    (data : List (IrisPoint α)) (depth maxDepth minSamplesSplit : ℕ) :
    Node α :=
  if h : depth ≥ maxDepth ∨ data.length < minSamplesSplit then
    let labels := data.map (fun p => labelMap p.species)
    Node.mk none none (some (impurityFn labels)) none none
      (some (mostCommonLabel labels))
  else
    match findBestSplit impurityFn data minSamplesSplit (pick data depth) with
    | none =>
        let labels := data.map (fun p => labelMap p.species)
        Node.mk none none (some (impurityFn labels)) none none
          (some (mostCommonLabel labels))
    | some split =>
        let f := split.feature.getD 0
        let leftData := data.filter
          (fun p => featVal f p ≤ split.threshold.getD 0)
        let rightData := data.filter
          (fun p => ¬ featVal f p ≤ split.threshold.getD 0)
        Node.mk split.feature split.threshold split.impurity
          (some (buildTree impurityFn pick leftData (depth + 1) maxDepth
            minSamplesSplit))
          (some (buildTree impurityFn pick rightData (depth + 1) maxDepth
            minSamplesSplit))
          none
termination_by maxDepth - depth
decreasing_by
  all_goals omega

/-- buildTree of the single-tree component (part_001): identical control
flow, but a leaf stores Math.round of the mean label as its value and the
constant 0 as its impurity, and the candidate features are always [0, 1]. -/
def buildTreeSingle (impurityFn : List ℤ → ℚ)
    (data : List (IrisPoint ℚ)) (depth maxDepth minSamplesSplit : ℕ) :
    Node ℚ :=
  if h : depth ≥ maxDepth ∨ data.length < minSamplesSplit then
    let labels : List ℤ := data.map (fun p => labelMap p.species)
    Node.mk none none (some 0) none none
      (some (mathRound ((labels.sum : ℚ) / (labels.length : ℚ))))
  else
    match findBestSplit impurityFn data minSamplesSplit [0, 1] with
    | none =>
        let labels : List ℤ := data.map (fun p => labelMap p.species)
        Node.mk none none (some 0) none none
          (some (mathRound ((labels.sum : ℚ) / (labels.length : ℚ))))
    | some split =>
        let f := split.feature.getD 0
        let leftData := data.filter
          (fun p => featVal f p ≤ split.threshold.getD 0)
        let rightData := data.filter
          (fun p => ¬ featVal f p ≤ split.threshold.getD 0)
        Node.mk split.feature split.threshold split.impurity
          (some (buildTreeSingle impurityFn leftData (depth + 1) maxDepth
            minSamplesSplit))
          (some (buildTreeSingle impurityFn rightData (depth + 1) maxDepth
            minSamplesSplit))
          none
termination_by maxDepth - depth
decreasing_by
  all_goals omega

/-- predict of the forest component: descend comparing the sample's
selected feature with the node threshold (≤ goes left) until reaching a
node without two children, then return its value. -/
def predict : Node α → IrisPoint α → ℤ
  | Node.mk feature threshold _ (some l) (some r) _, p =>
      let v := if feature = some 0 then p.sepalLength else p.sepalWidth
      if v ≤ threshold.getD 0 then predict l p else predict r p
  | Node.mk _ _ _ _ _ value, _ => value.getD 0

/-- majorityVote of the forest component: tally each tree's prediction into
votes = [0, 0, 0], take the first index attaining the maximum count, and
return it together with the list of individual predictions. -/
def majorityVote (forest : List (Node α)) (p : IrisPoint α) :
    ℕ × List ℤ :=
  let individual := forest.map (fun t => predict t p)
  let votes := individual.foldl
    (fun vs v => vs.set v.toNat (vs.getD v.toNat 0 + 1))
    [0, 0, 0]
  let final := votes.indexOf (votes.foldl max 0)
  (final, individual)

end Tree

/-- Planar point with numeric coordinates (the Point2D shape shared by the
K-Means, DBSCAN, regression, SOM and SVM engines). -/
structure Pt (α : Type) where
  x : α
  y : α
deriving DecidableEq, Repr

/-- Squared Euclidean distance (p.x − c.x) ** 2 + (p.y − c.y) ** 2, as
written in the K-Means assignment loop. -/
def sqDist {α : Type} [LinearOrderedCommRing α] (p c : Pt α) : α :=
  (p.x - c.x) ^ 2 + (p.y - c.y) ^ 2

namespace KMeans

variable {α : Type} [LinearOrderedField α]

/-- Cluster assignment of one point in the K-Means step: iterate over the
centroids keeping the index of the strictly smallest squared distance seen
so far, starting from cluster 0 and minDist = Infinity (modelled by the
none state of the accumulator, which every finite distance beats). -/
def assignCluster (centers : List (Pt α)) (p : Pt α) : ℕ :=
  (centers.enum.foldl
    (fun (acc : ℕ × Option α) ic =>
      let dist := sqDist p ic.2
      match acc.2 with
      | none => (ic.1, some dist)
      | some m => if dist < m then (ic.1, some dist) else acc)
    (0, none)).1

/-- Per-cluster accumulation of the K-Means step: sums of x, of y, and the
count, built by iterating over the assigned points into an array of
config.clusters zero-initialized slots, skipping any assignment outside
the array (the if (sums[cluster]) guard). -/
def sumsOf (k : ℕ) (assigned : List (Pt α × ℕ)) : List (α × α × ℕ) :=
  assigned.foldl
    (fun sums pc =>
      match sums.get? pc.2 with
      | some s => sums.set pc.2 (s.1 + pc.1.x, s.2.1 + pc.1.y, s.2.2 + 1)
      | none => sums)
    (List.replicate k ((0 : α), (0 : α), (0 : ℕ)))

/-- One iteration of the K-Means engine (the step closure of part_000):
reassign every point to its nearest centroid, then recompute every centroid
as the mean of its assigned points, re-seeding a centroid with an empty
cluster from a fresh random draw (the oracle rand supplies the two unit
draws of Math.random per empty cluster slot, and the centroid is
rand * 780 + 10 resp. rand * 580 + 10 exactly as in the source). -/
def step (k : ℕ) (rand : ℕ → α × α) (centers : List (Pt α))
    (points : List (Pt α)) : List (Pt α × ℕ) × List (Pt α) :=
  let assigned := points.map (fun p => (p, assignCluster centers p))
  let sums := sumsOf k assigned
  let newCenters := sums.enum.map
    (fun is =>
      if is.2.2.2 ≠ 0 then
        Pt.mk (is.2.1 / (is.2.2.2 : α)) (is.2.2.1 / (is.2.2.2 : α))
      else Pt.mk ((rand is.1).1 * 780 + 10) ((rand is.1).2 * 580 + 10))
  (assigned, newCenters)

end KMeans

namespace LinReg

variable {α : Type} [LinearOrderedField α]

/-- One gradient-descent pass of renderLinearRegression: accumulate
dw += x · (wx + b − y) and db += (wx + b − y) over the points, divide both
by the number of points, and update w and b with learning rate lr. -/
def gdStep (lr : α) (points : List (Pt α)) (wb : α × α) : α × α :=
  let dwdb := points.foldl
    (fun acc pt =>
      let yHat := wb.1 * pt.x + wb.2
      let error := yHat - pt.y
      (acc.1 + pt.x * error, acc.2 + error))
    ((0 : α), (0 : α))
  let dw := dwdb.1 / (points.length : α)
  let db := dwdb.2 / (points.length : α)
  (wb.1 - lr * dw, wb.2 - lr * db)

/-- Number of gradient-descent passes performed by renderLinearRegression
for a given frame counter:
Math.min(iterations, Math.floor((frame / 100) * iterations) + 1). -/
def currentIteration (iterations frame : ℕ) : ℕ :=
  min iterations (⌊((frame : ℚ) / 100) * (iterations : ℚ)⌋₊ + 1)

/-- The (w, b) state computed by renderLinearRegression: starting from
(0, 0), run currentIteration gradient-descent passes over the generated
points. -/
def trainedParams (lr : ℚ) (points : List (Pt ℚ)) (iterations frame : ℕ) :
    ℚ × ℚ :=
  (gdStep lr points)^[currentIteration iterations frame] (0, 0)

end LinReg

namespace DBSCAN

variable {α : Type} [LinearOrderedCommRing α]

/-- Epsilon-neighborhood of the point at index i: every other index whose
point lies within Euclidean distance eps.  The source compares
Math.sqrt(dx² + dy²) ≤ eps; for eps ≥ 0 this is equivalent to the
square-root-free comparison dx² + dy² ≤ eps² used here. -/
def getNeighbors (pts : List (Pt α)) (eps : α) (i : ℕ) : List ℕ :=
  (List.range pts.length).filter
    (fun j => j ≠ i ∧
      sqDist (pts.getD j ⟨0, 0⟩) (pts.getD i ⟨0, 0⟩) ≤ eps ^ 2)

/-- The expansion loop of expandCluster: walk the growing neighbors array
by index; a previously-noise neighbor is reclassified into the cluster and,
if its own neighborhood has at least minPts members, those neighbors not
already queued are appended; an unvisited neighbor is labelled into the
cluster without expansion; any other neighbor is left alone.  The loop is
given explicit fuel; fuel pts.length is enough (proved below), because the
queue stays duplicate-free with entries below pts.length. -/
def expandLoop (pts : List (Pt α)) (eps : α) (minPts : ℕ) (cluster : ℤ) :
    List ℤ → List ℕ → ℕ → ℕ → List ℤ
  | labels, _, _, 0 => labels
  | labels, neighbors, i, fuel + 1 =>
    if i < neighbors.length then
      let ni := neighbors.getD i 0
      if labels.getD ni 0 = -1 then
        let labels2 := labels.set ni cluster
        let nn := getNeighbors pts eps ni
        let neighbors2 :=
          if minPts ≤ nn.length then
            nn.foldl (fun acc x => if x ∈ acc then acc else acc ++ [x])
              neighbors
          else neighbors
        expandLoop pts eps minPts cluster labels2 neighbors2 (i + 1) fuel
      else if labels.getD ni 0 = -2 then
        expandLoop pts eps minPts cluster (labels.set ni cluster) neighbors
          (i + 1) fuel
      else
        expandLoop pts eps minPts cluster labels neighbors (i + 1) fuel
    else labels

/-- expandCluster of the DBSCAN engine: label the seed point with the
cluster id, then run the expansion loop over its neighbor list. -/
def expandCluster (pts : List (Pt α)) (eps : α) (minPts : ℕ)
    (labels : List ℤ) (pointIndex : ℕ) (neighbors : List ℕ)
    (cluster : ℤ) : List ℤ :=
  expandLoop pts eps minPts cluster (labels.set pointIndex cluster)
    neighbors 0 pts.length

/-- Main loop of dbscan: visit the points in index order, skipping any
point already labelled; a point with fewer than minPts neighbors becomes
noise; otherwise a fresh cluster id is taken and the cluster is expanded
from that seed. -/
def dbscanLoop (pts : List (Pt α)) (eps : α) (minPts : ℕ) :
    List ℕ → List ℤ × ℤ → List ℤ × ℤ
  | [], st => st
  | i :: rest, (labels, clusterIndex) =>
    if labels.getD i 0 ≠ -2 then
      dbscanLoop pts eps minPts rest (labels, clusterIndex)
    else
      let neighbors := getNeighbors pts eps i
      if neighbors.length < minPts then
        dbscanLoop pts eps minPts rest (labels.set i (-1), clusterIndex)
      else
        dbscanLoop pts eps minPts rest
          (expandCluster pts eps minPts labels i neighbors (clusterIndex + 1),
            clusterIndex + 1)

/-- dbscan of part_002: initialize every label to −2 (unvisited), run the
main loop over all indices, and return the final labels together with the
number of clusters found. -/
def dbscan (pts : List (Pt α)) (eps : α) (minPts : ℕ) : List ℤ × ℤ :=
  dbscanLoop pts eps minPts (List.range pts.length)
    (List.replicate pts.length (-2), 0)

/-- Number of noise points displayed by the component:
points.filter(p => p.cluster === -1).length. -/
def noiseCount (labels : List ℤ) : ℕ :=
  (labels.filter (fun l => l = -1)).length

end DBSCAN

namespace SOM

variable {α : Type} [LinearOrderedField α]

/-- A SOM neuron: learned weight vector (x, y) and fixed topological grid
coordinate (i, j). -/
structure Neuron (α : Type) where
  x : α
  y : α
  i : ℕ
  j : ℕ
deriving DecidableEq, Repr

/-- Grid initialization of renderSOM: for i and j ranging over
[0, gridSize), push a neuron with weight vector
(i / (gridSize − 1) − 0.5, j / (gridSize − 1) − 0.5) and topological
coordinate (i, j), outer loop on i. -/
def initGrid (gridSize : ℕ) : List (Neuron α) :=
  (List.range gridSize).flatMap
    (fun (i : ℕ) => (List.range gridSize).map
      (fun (j : ℕ) => Neuron.mk ((i : α) / ((gridSize : α) - 1) - 1 / 2)
        ((j : α) / ((gridSize : α) - 1) - 1 / 2) i j))

/-- Best-matching-unit search of renderSOM: iterate over the grid keeping
the index of the strictly smallest hypF-distance (Math.hypot in the
source) seen so far, starting from index 0 and minDist = Infinity
(the none accumulator state). -/
def findBMU (hypF : α → α → α) (grid : List (Neuron α)) (p : Pt α) : ℕ :=
  (grid.enum.foldl
    (fun (acc : ℕ × Option α) inode =>
      let dist := hypF (p.x - inode.2.x) (p.y - inode.2.y)
      match acc.2 with
      | none => (inode.1, some dist)
      | some m => if dist < m then (inode.1, some dist) else acc)
    (0, none)).1

/-- One SOM training step: find the BMU of the drawn point, decay the
learning rate and sigma exponentially in the step index, and move every
neuron's weight vector toward the point scaled by the Gaussian influence of
its grid-topology distance to the BMU.  expF models Math.exp and hypF
models Math.hypot. -/
def somStep (expF : α → α) (hypF : α → α → α) (lr sigma : α)
    (iterations : ℕ) (point : Pt α) (iter : ℕ) (grid : List (Neuron α)) :
    List (Neuron α) :=
  let bmuIndex := findBMU hypF grid point
  let lastBMU := grid.getD bmuIndex ⟨0, 0, 0, 0⟩
  let lrDecay := lr * expF (-(iter : α) / (iterations : α))
  let sigmaDecay := sigma * expF (-(iter : α) / (iterations : α))
  grid.map
    (fun node =>
      let gridDist := hypF ((node.i : α) - (lastBMU.i : α))
        ((node.j : α) - (lastBMU.j : α))
      let influence := expF (-(gridDist ^ 2) / (2 * sigmaDecay ^ 2))
      { node with
        x := node.x + lrDecay * influence * (point.x - node.x),
        y := node.y + lrDecay * influence * (point.y - node.y) })

/-- The trained grid computed by renderSOM at a given frame: initialize the
grid, then run min(iterations, frame) training steps, the step at index
iter drawing the data point pick iter (modelling the uniformly random
selection from fixedData). -/
def renderSOMGrid (expF : α → α) (hypF : α → α → α) (pick : ℕ → Pt α)
    (gridSize : ℕ) (lr sigma : α) (iterations frame : ℕ) :
    List (Neuron α) :=
  (List.range (min iterations frame)).foldl
    (fun grid iter =>
      somStep expF hypF lr sigma iterations (pick iter) iter grid)
    (initGrid gridSize)

end SOM

namespace MLP

variable {α : Type} [LinearOrderedCommRing α]

/-- A dense layer: weight matrix (rows indexed by output neuron) and bias
vector. -/
structure Layer (α : Type) where
  weights : List (List α)
  biases : List α
deriving DecidableEq, Repr

/-- Weighted sum of one output neuron:
row.reduce((sum, w, i) => sum + w * curr[i], bias). -/
def neuronSum (bias : α) (row curr : List α) : α :=
  (row.zip curr).foldl (fun s wc => s + wc.1 * wc.2) bias

/-- forwardPass of the perceptron component: starting from the input,
apply activation(W·x + b) per layer and collect every layer's activations,
the input included. -/
def forwardPass (func : α → α) (input : List α) (layers : List (Layer α)) :
    List (List α) :=
  (layers.foldl
    (fun (acc : List (List α) × List α) layer =>
      let z := layer.weights.zipWith
        (fun row b => neuronSum b row acc.2) layer.biases
      let curr := z.map func
      (acc.1 ++ [curr], curr))
    ([input], input)).1

/-- The delta lists built by the training step, output layer first computed
then hidden layers prepended walking backwards: the recursion takes the
remaining layers together with their activation outputs (activations list
without the input entry). -/
def computeDeltas (deriv : α → α) (target : List α) :
    List (Layer α) → List (List α) → List (List α)
  | [], _ => []
  | [_], aOut :: _ =>
    [aOut.zipWith (fun o t => (o - t) * deriv o) target]
  | [_], [] => []
  | _ :: next :: rest, aCur :: aRest =>
    let ds := computeDeltas deriv target (next :: rest) aRest
    let nextDelta := ds.headD []
    (aCur.enum.map
      (fun ja =>
        ((next.weights.zip nextDelta).foldl
          (fun s rd => s + rd.1.getD ja.1 0 * rd.2) 0) * deriv ja.2)) :: ds
  | _ :: _ :: _, [] => []

/-- One training step of the perceptron component: forward pass, delta
computation, then update every weight by w − lr · delta_j · input_i and
every bias by b − lr · delta_j, where input_i ranges over the layer's
input activations. -/
def stepNetwork (func deriv : α → α) (lr : α) (input target : List α)
    (layers : List (Layer α)) : List (Layer α) :=
  let acts := forwardPass func input layers
  let deltas := computeDeltas deriv target layers (acts.drop 1)
  (layers.zip (deltas.zip acts)).map
    (fun t =>
      { weights := (t.1.weights.zip t.2.1).map
          (fun rd => rd.1.zipWith (fun w a => w - lr * rd.2 * a) t.2.2),
        biases := t.1.biases.zipWith (fun b d => b - lr * d) t.2.1 })

/-- The relu activation of the component: max(0, x). -/
def relu (x : α) : α := max 0 x

/-- Derivative table entry for relu, expressed as a function of the
output: y > 0 ? 1 : 0. -/
def reluDeriv (y : α) : α := if y > 0 then 1 else 0

/-- Derivative table entry for sigmoid, expressed as a function of the
output: y · (1 − y). -/
def sigmoidDeriv (y : α) : α := y * (1 - y)

end MLP

namespace SVM

variable {α : Type} [LinearOrderedField α]

/-- SVM training point: planar coordinates and a 0/1 class label. -/
structure LPoint (α : Type) where
  x : α
  y : α
  label : ℤ
deriving DecidableEq, Repr

/-- kernelFunction of renderSVM: the dot product when kernel < 0.5,
otherwise exp(−gamma · squared distance) with expF modelling Math.exp. -/
def kernelFunction (expF : α → α) (kernel gamma : α) (x1 y1 x2 y2 : α) :
    α :=
  if kernel < 1 / 2 then x1 * x2 + y1 * y2
  else expF (-gamma * ((x1 - x2) ^ 2 + (y1 - y2) ^ 2))

/-- predictRawBase of renderSVM: the signed kernel expansion over the
training points with unit ±1 coefficients taken from the labels. -/
def predictRawBase (expF : α → α) (kernel gamma : α)
    (points : List (LPoint α)) (x y : α) : α :=
  points.foldl
    (fun sum point =>
      sum + (if point.label = 1 then 1 else -1) *
        kernelFunction expF kernel gamma x y point.x point.y)
    0

/-- The heuristic coefficients of renderSVM: a point whose base decision
magnitude is strictly below the margin cutoff 1 / c receives coefficient
±c according to its label, every other point receives 0. -/
def alphas (expF : α → α) (kernel gamma c : α)
    (points : List (LPoint α)) : List α :=
  points.map
    (fun p =>
      if |predictRawBase expF kernel gamma points p.x p.y| < 1 / c then
        (if p.label = 1 then c else -c)
      else 0)

/-- predictRaw of renderSVM: the kernel expansion under the heuristic
coefficients. -/
def predictRaw (expF : α → α) (kernel gamma c : α)
    (points : List (LPoint α)) (x y : α) : α :=
  ((points.zip (alphas expF kernel gamma c points)).foldl
    (fun sum pa =>
      sum + pa.2 * kernelFunction expF kernel gamma x y pa.1.x pa.1.y)
    0)

/-- predict of renderSVM: class 1 exactly when the decision value is
strictly positive, else class 0. -/
def predict (expF : α → α) (kernel gamma c : α)
    (points : List (LPoint α)) (x y : α) : ℤ :=
  if predictRaw expF kernel gamma c points x y > 0 then 1 else 0

/-- Support-vector highlight condition of renderSVM: the recomputed
decision magnitude of the training point is at most 1.05. -/
def isSupportVector (expF : α → α) (kernel gamma c : α)
    (points : List (LPoint α)) (p : LPoint α) : Prop :=
  |predictRaw expF kernel gamma c points p.x p.y| ≤ 21 / 20

end SVM

namespace Tree

variable {α : Type} [LinearOrderedField α]

/-- Specification-side candidate list of findBestSplit: for each candidate
feature in order, the midpoints between adjacent distinct ascending-sorted
observed values, keeping only thresholds whose two partitions are both
non-empty, in lowest-feature-then-lowest-threshold order. -/
def validCands (data : List (IrisPoint α)) (features : List ℕ) :
    List (ℕ × α) :=
  (features.flatMap
    (fun f => (midpoints (sortedVals data f)).map (fun t => (f, t)))).filter
    (fun c =>
      (data.filter (fun p => featVal c.1 p ≤ c.2)).length ≠ 0 ∧
        (data.filter (fun p => ¬ featVal c.1 p ≤ c.2)).length ≠ 0)

/-- Specification-side selected split: the first valid candidate whose
information gain is strictly positive and maximal among all valid
candidates (so ties keep the earliest candidate, and a gain of exactly 0 is
never selected). -/
def specBestSplit (impurityFn : List ℤ → α) (data : List (IrisPoint α))
    (features : List ℕ) : Option (ℕ × α) :=
  (validCands data features).find?
    (fun c =>
      decide (0 < gainOf impurityFn data c.1 c.2) &&
        decide (∀ d ∈ validCands data features,
          gainOf impurityFn data d.1 d.2 ≤ gainOf impurityFn data c.1 c.2))

/-- A leaf node carrying only a class value (used to build concrete
forests for the majority-vote example). -/
def leafOf (v : ℤ) : Node ℚ :=
  Node.mk none none none none none (some v)

/-- A fixed sample used to query concrete forests. -/
def samplePt : IrisPoint ℚ :=
  ⟨1, 1, Species.setosa⟩

/-- Concrete dataset exhibiting the leaf-value defect of the single-tree
buildTree: three samples with identical feature values (so no split is
possible) and species setosa, setosa, virginica, hence labels [0, 0, 2]. -/
def failData : List (IrisPoint ℚ) :=
  [⟨1, 1, Species.setosa⟩, ⟨1, 1, Species.setosa⟩,
    ⟨1, 1, Species.virginica⟩]

end Tree

namespace KMeans

variable {α : Type} [LinearOrderedField α]

/-- Recursive form of the assignment fold of the K-Means step: walk the
remaining centroids with their running index k, the current best index b
and the current minimal distance (none = Infinity). -/
def argminGo (p : Pt α) : List (Pt α) → ℕ → ℕ → Option α → ℕ
  | [], _, b, _ => b
  | x :: xs, k, _, none => argminGo p xs (k + 1) k (some (sqDist p x))
  | x :: xs, k, b, some m =>
    if sqDist p x < m then argminGo p xs (k + 1) k (some (sqDist p x))
    else argminGo p xs (k + 1) b (some m)

end KMeans

namespace LinReg

variable {α : Type} [LinearOrderedField α]

/-- Mean of a list of numbers (sum divided by length). -/
def meanOf (l : List α) : α := l.sum / (l.length : α)

/-- Specification-side gradient step of the linear-regression engine:
dw = mean(x · (wx + b − y)), db = mean(wx + b − y), then
w := w − lr · dw and b := b − lr · db. -/
def specGradStep (lr : α) (points : List (Pt α)) (wb : α × α) : α × α :=
  (wb.1 - lr * meanOf (points.map (fun p => p.x * (wb.1 * p.x + wb.2 - p.y))),
    wb.2 - lr * meanOf (points.map (fun p => wb.1 * p.x + wb.2 - p.y)))

end LinReg

namespace DBSCAN

/-- Concrete six-point configuration (in processing order A, A2, B, X, Y,
Z) on which the noise count of dbscan increases when epsilon grows from 40
to 44 at minPoints = 2 (the coordinate unit is 1/100 of the component's
plot unit, so this is the in-range run with points (0, −0.44), (0, −0.84),
(0, 0), (0.40, 0), (0, 0.40), (−0.40, 0) and epsilon 0.40 vs 0.44): at
epsilon 40 the core point B clusters X, Y, Z and only A, A2 are noise; at
epsilon 44 the point A becomes core first and absorbs the core point B
without ever expanding through it — the expansion push sits in the
previously-noise branch, where the pushing condition can never hold — so
X, Y and Z all end as noise. -/
def cexPts : List (Pt ℤ) :=
  [⟨0, -44⟩, ⟨0, -84⟩, ⟨0, 0⟩, ⟨40, 0⟩, ⟨0, 40⟩, ⟨-40, 0⟩]

end DBSCAN

namespace MLP

variable {α : Type} [LinearOrderedCommRing α]

/-- Layer-by-layer activations produced by the forward pass, the input
activation excluded: each entry is activation(W·prev + b) of the
corresponding layer.  This is the tail recursion the forward fold is
proved equal to. -/
def fpAux (func : α → α) : List α → List (Layer α) → List (List α)
  | _, [] => []
  | curr, L :: Ls =>
    ((L.weights.zipWith (fun row b => neuronSum b row curr) L.biases).map
        func)
      :: fpAux func
        ((L.weights.zipWith (fun row b => neuronSum b row curr)
          L.biases).map func) Ls

end MLP

/-!
Theorems.
-/

/-- Fold accumulating a pair of sums equals the pair of sums of the mapped
lists. -/
theorem foldl_pair_sum {α β : Type} [LinearOrderedField α] (f g : β → α)
    (l : List β) (a b : α) :
    l.foldl (fun acc pt => (acc.1 + f pt, acc.2 + g pt)) (a, b)
      = (a + (l.map f).sum, b + (l.map g).sum) := by
  induction l generalizing a b with
  | nil => simp
  | cons x t ih => simp [ih, add_assoc]

/-- The gradient-descent pass of renderLinearRegression computes exactly
the mean-gradient update of the specification. -/
theorem gdStep_eq_specGradStep {α : Type} [LinearOrderedField α] (lr : α)
    (points : List (Pt α)) (wb : α × α) :
    LinReg.gdStep lr points wb = LinReg.specGradStep lr points wb := by
  have hs : ∀ (l : List (Pt α)) (a b : α),
      l.foldl (fun acc pt =>
        (acc.1 + pt.x * (wb.1 * pt.x + wb.2 - pt.y),
          acc.2 + (wb.1 * pt.x + wb.2 - pt.y))) (a, b)
        = (a + (l.map (fun p => p.x * (wb.1 * p.x + wb.2 - p.y))).sum,
            b + (l.map (fun p => wb.1 * p.x + wb.2 - p.y)).sum) := by
    intro l
    induction l with
    | nil => intro a b; simp
    | cons x t ih => intro a b; simp [ih, add_assoc]
  simp only [LinReg.gdStep, LinReg.specGradStep, LinReg.meanOf]
  rw [hs]
  simp

/-- C5: the linear-regression engine starts from (w, b) = (0, 0) and
performs exactly min(iterations, floor(frame/100 · iterations) + 1)
gradient-descent steps, each step updating w := w − lr · mean(x·(wx+b−y))
and b := b − lr · mean(wx+b−y). -/
theorem c5_linreg_trajectory (lr : ℚ) (points : List (Pt ℚ))
    (iterations frame : ℕ) :
    LinReg.trainedParams lr points iterations frame =
      (LinReg.specGradStep lr points)^[
        min iterations (⌊((frame : ℚ) / 100) * (iterations : ℚ)⌋₊ + 1)]
        (0, 0) := by
  have hf : LinReg.gdStep lr points = LinReg.specGradStep lr points := by
    funext wb
    exact gdStep_eq_specGradStep lr points wb
  simp [LinReg.trainedParams, LinReg.currentIteration, hf]

/-- C10: when no training point's base decision magnitude is strictly
below 1/C, every heuristic coefficient of the SVM engine is 0, the
decision function is identically zero, every query is classified as class
0, and every training point satisfies the support-vector highlight
condition. -/
theorem c10_svm_degenerate {α : Type} [LinearOrderedField α]
    (expF : α → α) (kernel gamma c : α) (points : List (SVM.LPoint α))
    (h : ∀ p ∈ points,
      ¬ |SVM.predictRawBase expF kernel gamma points p.x p.y| < 1 / c) :
    SVM.alphas expF kernel gamma c points
        = List.replicate points.length 0 ∧
      (∀ x y : α, SVM.predictRaw expF kernel gamma c points x y = 0) ∧
      (∀ x y : α, SVM.predict expF kernel gamma c points x y = 0) ∧
      (∀ p ∈ points, SVM.isSupportVector expF kernel gamma c points p) := by
  have halpha : SVM.alphas expF kernel gamma c points
      = List.replicate points.length 0 := by
    rw [List.eq_replicate_iff]
    constructor
    · simp [SVM.alphas]
    · intro b hb
      rcases List.mem_map.1 hb with ⟨p, hp, rfl⟩
      exact if_neg (h p hp)
  have hzero : ∀ (l : List (SVM.LPoint α × α)) (s : α) (x y : α),
      (∀ pa ∈ l, pa.2 = 0) →
      l.foldl (fun sum pa =>
        sum + pa.2 * SVM.kernelFunction expF kernel gamma x y pa.1.x pa.1.y)
        s = s := by
    intro l
    induction l with
    | nil => intro s x y _; rfl
    | cons pa t ih =>
      intro s x y hall
      have h0 : pa.2 = 0 := hall pa (List.mem_cons_self pa t)
      simp only [List.foldl_cons, h0, zero_mul, add_zero]
      exact ih s x y (fun q hq => hall q (List.mem_cons_of_mem pa hq))
  have hraw : ∀ x y : α, SVM.predictRaw expF kernel gamma c points x y = 0 := by
    intro x y
    unfold SVM.predictRaw
    apply hzero
    intro pa hpa
    have h2 := (List.of_mem_zip hpa).2
    rw [halpha] at h2
    exact List.eq_of_mem_replicate h2
  refine ⟨halpha, hraw, ?_, ?_⟩
  · intro x y
    simp [SVM.predict, hraw x y]
  · intro p _
    simp only [SVM.isSupportVector, hraw p.x p.y, abs_zero]
    positivity

/-- Witness for C10 at a concrete one-point training set with the linear
kernel and C = 1: the base decision value at the point is 1, so the
hypothesis holds and all conclusions follow. -/
theorem c10_svm_degenerate_witness :
    (∀ p ∈ [SVM.LPoint.mk (1 : ℚ) 0 1],
      ¬ |SVM.predictRawBase id 0 0 [SVM.LPoint.mk (1 : ℚ) 0 1] p.x p.y|
        < 1 / 1) ∧
      (SVM.alphas id 0 0 1 [SVM.LPoint.mk (1 : ℚ) 0 1]
          = List.replicate 1 0 ∧
        (∀ x y : ℚ, SVM.predictRaw id 0 0 1 [SVM.LPoint.mk (1 : ℚ) 0 1] x y
          = 0) ∧
        (∀ x y : ℚ, SVM.predict id 0 0 1 [SVM.LPoint.mk (1 : ℚ) 0 1] x y
          = 0) ∧
        (∀ p ∈ [SVM.LPoint.mk (1 : ℚ) 0 1],
          SVM.isSupportVector id 0 0 1 [SVM.LPoint.mk (1 : ℚ) 0 1] p)) := by
  have hhyp : ∀ p ∈ [SVM.LPoint.mk (1 : ℚ) 0 1],
      ¬ |SVM.predictRawBase id 0 0 [SVM.LPoint.mk (1 : ℚ) 0 1] p.x p.y|
        < 1 / 1 := by
    norm_num [SVM.predictRawBase, SVM.kernelFunction]
  exact ⟨hhyp, c10_svm_degenerate id 0 0 1 [SVM.LPoint.mk (1 : ℚ) 0 1] hhyp⟩

/-- The vote tally fold of majorityVote: starting from [a, b, c], folding a
list of labels drawn from {0, 1, 2} adds the occurrence counts of 0, 1 and
2 to the three slots. -/
theorem votes_count_fold : ∀ (l : List ℤ) (a b c : ℕ),
    (∀ v ∈ l, v = 0 ∨ v = 1 ∨ v = 2) →
    l.foldl (fun vs v => vs.set v.toNat (vs.getD v.toNat 0 + 1)) [a, b, c]
      = [a + l.count 0, b + l.count 1, c + l.count 2] := by
  intro l
  induction l with
  | nil => intro a b c _; simp
  | cons v t ih =>
    intro a b c h
    have ht : ∀ u ∈ t, u = 0 ∨ u = 1 ∨ u = 2 :=
      fun u hu => h u (List.mem_cons_of_mem v hu)
    rcases h v (List.mem_cons_self v t) with rfl | rfl | rfl
    · have hstep : ([a, b, c].set (0 : ℤ).toNat
          ([a, b, c].getD (0 : ℤ).toNat 0 + 1)) = [a + 1, b, c] := by rfl
      rw [List.foldl_cons, hstep, ih (a + 1) b c ht]
      simp [List.count_cons]
      omega
    · have hstep : ([a, b, c].set (1 : ℤ).toNat
          ([a, b, c].getD (1 : ℤ).toNat 0 + 1)) = [a, b + 1, c] := by rfl
      rw [List.foldl_cons, hstep, ih a (b + 1) c ht]
      simp [List.count_cons]
      omega
    · have hstep : ([a, b, c].set (2 : ℤ).toNat
          ([a, b, c].getD (2 : ℤ).toNat 0 + 1)) = [a, b, c + 1] := by rfl
      rw [List.foldl_cons, hstep, ih a b (c + 1) ht]
      simp [List.count_cons]
      omega

/-- C8: majorityVote returns the list of individual per-tree predictions
together with the first class index (priority 0, 1, 2) attaining the
maximum vote count; in particular three trees predicting [0, 1, 1] yield
final = 1 with votes = [0, 1, 1]. -/
theorem c8_majority_vote :
    (∀ (forest : List (Node ℚ)) (p : IrisPoint ℚ),
      (∀ v ∈ forest.map (fun t => Tree.predict t p),
        v = 0 ∨ v = 1 ∨ v = 2) →
      (Tree.majorityVote forest p).2
          = forest.map (fun t => Tree.predict t p) ∧
        (Tree.majorityVote forest p).1 < 3 ∧
        (∀ c : ℤ, c = 0 ∨ c = 1 ∨ c = 2 →
          (Tree.majorityVote forest p).2.count c
            ≤ (Tree.majorityVote forest p).2.count
              ((Tree.majorityVote forest p).1 : ℤ)) ∧
        (∀ c : ℕ, c < (Tree.majorityVote forest p).1 →
          (Tree.majorityVote forest p).2.count (c : ℤ)
            < (Tree.majorityVote forest p).2.count
              ((Tree.majorityVote forest p).1 : ℤ))) ∧
      Tree.majorityVote [Tree.leafOf 0, Tree.leafOf 1, Tree.leafOf 1]
        Tree.samplePt = (1, [0, 1, 1]) := by
  constructor
  · intro forest p h
    have hsnd : (Tree.majorityVote forest p).2
        = forest.map (fun t => Tree.predict t p) := rfl
    have hfst : (Tree.majorityVote forest p).1
        = ((forest.map (fun t => Tree.predict t p)).foldl
            (fun vs v => vs.set v.toNat (vs.getD v.toNat 0 + 1))
            [0, 0, 0]).indexOf
          (((forest.map (fun t => Tree.predict t p)).foldl
            (fun vs v => vs.set v.toNat (vs.getD v.toNat 0 + 1))
            [0, 0, 0]).foldl max 0) := rfl
    rw [votes_count_fold _ 0 0 0 h] at hfst
    simp only [Nat.zero_add] at hfst
    set ind := forest.map (fun t => Tree.predict t p) with hind
    set n0 := ind.count 0 with hn0
    set n1 := ind.count 1 with hn1
    set n2 := ind.count 2 with hn2
    have hM : ([n0, n1, n2].foldl max 0) = max (max (max 0 n0) n1) n2 := rfl
    have hle0 : n0 ≤ max (max (max 0 n0) n1) n2 := by omega
    have hle1 : n1 ≤ max (max (max 0 n0) n1) n2 := by omega
    have hle2 : n2 ≤ max (max (max 0 n0) n1) n2 := by omega
    have hmem : max (max (max 0 n0) n1) n2 = n0 ∨
        max (max (max 0 n0) n1) n2 = n1 ∨
        max (max (max 0 n0) n1) n2 = n2 := by omega
    set M := max (max (max 0 n0) n1) n2 with hMdef
    rw [hM] at hfst
    by_cases h0 : n0 = M
    · have hidx : [n0, n1, n2].indexOf M = 0 :=
        List.indexOf_cons_eq _ h0
      rw [hidx] at hfst
      refine ⟨hsnd, by omega, ?_, ?_⟩
      · intro c hc
        simp only [hsnd, hfst, Nat.cast_zero]
        rcases hc with rfl | rfl | rfl <;> omega
      · intro c hc
        rw [hfst] at hc
        omega
    · have hidx1 : [n0, n1, n2].indexOf M
          = ([n1, n2].indexOf M) + 1 := List.indexOf_cons_ne _ h0
      by_cases h1 : n1 = M
      · have hidx : [n1, n2].indexOf M = 0 := List.indexOf_cons_eq _ h1
        rw [hidx1, hidx] at hfst
        norm_num at hfst
        refine ⟨hsnd, by omega, ?_, ?_⟩
        · intro c hc
          simp only [hsnd, hfst, Nat.cast_one]
          rcases hc with rfl | rfl | rfl <;> omega
        · intro c hc
          rw [hfst] at hc
          interval_cases c
          simp only [hsnd, hfst, Nat.cast_zero, Nat.cast_one]
          omega
      · have h2 : n2 = M := by omega
        have hidx2 : [n1, n2].indexOf M = ([n2].indexOf M) + 1 :=
          List.indexOf_cons_ne _ h1
        have hidx3 : [n2].indexOf M = 0 := List.indexOf_cons_eq _ h2
        rw [hidx1, hidx2, hidx3] at hfst
        norm_num at hfst
        refine ⟨hsnd, by omega, ?_, ?_⟩
        · intro c hc
          simp only [hsnd, hfst, Nat.cast_ofNat]
          rcases hc with rfl | rfl | rfl <;> omega
        · intro c hc
          rw [hfst] at hc
          interval_cases c <;>
          · simp only [hsnd, hfst, Nat.cast_zero, Nat.cast_one, Nat.cast_ofNat]
            omega
  · decide

/-- C4: the noise count of dbscan is not monotone in epsilon.  On the
six-point configuration cexPts with minPoints = 2, radius 40 yields 2
noise points (labels [−1, −1, 1, 1, 1, 1]) while the larger radius 44
yields 3 noise points (labels [1, 1, 1, −1, −1, −1]): growing epsilon lets
the first point seed the cluster and swallow the only core point without
expanding through it, stranding the remaining points as noise. -/
theorem c4_noise_count_not_monotone :
    (40 : ℤ) ≤ 44 ∧
      DBSCAN.dbscan DBSCAN.cexPts 40 2 = ([-1, -1, 1, 1, 1, 1], 1) ∧
      DBSCAN.dbscan DBSCAN.cexPts 44 2 = ([1, 1, 1, -1, -1, -1], 1) ∧
      DBSCAN.noiseCount (DBSCAN.dbscan DBSCAN.cexPts 40 2).1 = 2 ∧
      DBSCAN.noiseCount (DBSCAN.dbscan DBSCAN.cexPts 44 2).1 = 3 := by
  decide

/-- C1: the single-tree buildTree (part_001) violates the leaf
specification.  On failData (labels [0, 0, 2]) with maxDepth 1 and
minSamplesSplit 4 it emits a leaf whose value is 1 — Math.round of the
label mean 2/3 — although the majority class is 0 and the class 1 does not
occur in the partition at all, and whose impurity is the constant 0
although the Gini impurity of the partition is 4/9; the forest component's
buildTree (part_000) computes the specified majority class 0 and impurity
4/9 on the same input. -/
theorem c1_single_tree_leaf_code_bug :
    (Tree.buildTreeSingle Tree.calculateGini Tree.failData 0 1 4).left
        = none ∧
      (Tree.buildTreeSingle Tree.calculateGini Tree.failData 0 1 4).right
        = none ∧
      (Tree.buildTreeSingle Tree.calculateGini Tree.failData 0 1 4).value
        = some 1 ∧
      (Tree.buildTreeSingle Tree.calculateGini Tree.failData 0 1 4).impurity
        = some 0 ∧
      Tree.failData.map (fun p => labelMap p.species) = [0, 0, 2] ∧
      Tree.mostCommonLabel [0, 0, 2] = 0 ∧
      (Tree.calculateGini [0, 0, 2] : ℚ) = 4 / 9 ∧
      (1 : ℤ) ∉ Tree.failData.map (fun p => labelMap p.species) ∧
      (Tree.buildTree Tree.calculateGini (fun _ _ => [0, 1])
          Tree.failData 0 1 4).value = some 0 ∧
      (Tree.buildTree Tree.calculateGini (fun _ _ => [0, 1])
          Tree.failData 0 1 4).impurity = some (4 / 9 : ℚ) := by
  have hlabels : Tree.failData.map (fun p => labelMap p.species)
      = [0, 0, 2] := by decide
  have hdedup : ([0, 0, 2] : List ℤ).dedup = [0, 2] := by decide
  have hgini : (Tree.calculateGini [0, 0, 2] : ℚ) = 4 / 9 := by
    rw [Tree.calculateGini, hdedup]
    norm_num
  have hround : Tree.mathRound (((([0, 0, 2] : List ℤ).sum : ℚ))
      / ((([0, 0, 2] : List ℤ).length : ℚ))) = 1 := by
    rw [Tree.mathRound]
    norm_num
  have hcond : (0 ≥ 1 ∨ Tree.failData.length < 4) := Or.inr (by decide)
  have hsingle : Tree.buildTreeSingle Tree.calculateGini Tree.failData 0 1 4
      = Node.mk none none (some 0) none none
        (some (Tree.mathRound
          (((Tree.failData.map (fun p => labelMap p.species)).sum : ℚ)
            / ((Tree.failData.map (fun p => labelMap p.species)).length
              : ℚ)))) := by
    rw [Tree.buildTreeSingle, dif_pos hcond]
  have hforest : Tree.buildTree Tree.calculateGini (fun _ _ => [0, 1])
      Tree.failData 0 1 4
      = Node.mk none none
        (some (Tree.calculateGini
          (Tree.failData.map (fun p => labelMap p.species)))) none none
        (some (Tree.mostCommonLabel
          (Tree.failData.map (fun p => labelMap p.species)))) := by
    rw [Tree.buildTree, dif_pos hcond]
  rw [hsingle, hforest, hlabels]
  refine ⟨rfl, rfl, ?_, rfl, rfl, by decide, hgini, by decide, by decide, ?_⟩
  · simp only [Node.value]
    rw [hround]
  · simp only [Node.impurity]
    rw [hgini]

/-- Witness for C8: the general characterization applied to three leaf
trees predicting 0, 1, 1. -/
theorem c8_majority_vote_witness :
    (∀ v ∈ ([Tree.leafOf 0, Tree.leafOf 1, Tree.leafOf 1].map
        (fun t => Tree.predict t Tree.samplePt)), v = 0 ∨ v = 1 ∨ v = 2) ∧
      ((Tree.majorityVote [Tree.leafOf 0, Tree.leafOf 1, Tree.leafOf 1]
            Tree.samplePt).2
          = [Tree.leafOf 0, Tree.leafOf 1, Tree.leafOf 1].map
            (fun t => Tree.predict t Tree.samplePt) ∧
        (Tree.majorityVote [Tree.leafOf 0, Tree.leafOf 1, Tree.leafOf 1]
            Tree.samplePt).1 < 3 ∧
        (∀ c : ℤ, c = 0 ∨ c = 1 ∨ c = 2 →
          (Tree.majorityVote [Tree.leafOf 0, Tree.leafOf 1, Tree.leafOf 1]
              Tree.samplePt).2.count c
            ≤ (Tree.majorityVote [Tree.leafOf 0, Tree.leafOf 1,
                Tree.leafOf 1] Tree.samplePt).2.count
              ((Tree.majorityVote [Tree.leafOf 0, Tree.leafOf 1,
                Tree.leafOf 1] Tree.samplePt).1 : ℤ)) ∧
        (∀ c : ℕ,
          c < (Tree.majorityVote [Tree.leafOf 0, Tree.leafOf 1,
            Tree.leafOf 1] Tree.samplePt).1 →
          (Tree.majorityVote [Tree.leafOf 0, Tree.leafOf 1, Tree.leafOf 1]
              Tree.samplePt).2.count (c : ℤ)
            < (Tree.majorityVote [Tree.leafOf 0, Tree.leafOf 1,
                Tree.leafOf 1] Tree.samplePt).2.count
              ((Tree.majorityVote [Tree.leafOf 0, Tree.leafOf 1,
                Tree.leafOf 1] Tree.samplePt).1 : ℤ))) :=
  ⟨by decide, c8_majority_vote.1 [Tree.leafOf 0, Tree.leafOf 1, Tree.leafOf 1]
    Tree.samplePt (by decide)⟩

/-- The assignment fold of the K-Means step equals its recursive form. -/
theorem assignCluster_eq_argminGo {α : Type} [LinearOrderedField α]
    (centers : List (Pt α)) (p : Pt α) :
    KMeans.assignCluster centers p = KMeans.argminGo p centers 0 0 none := by
  suffices h : ∀ (l : List (Pt α)) (k b : ℕ) (m : Option α),
      ((l.enumFrom k).foldl
        (fun (acc : ℕ × Option α) ic =>
          let dist := sqDist p ic.2
          match acc.2 with
          | none => (ic.1, some dist)
          | some mv => if dist < mv then (ic.1, some dist) else acc)
        (b, m)).1 = KMeans.argminGo p l k b m by
    exact h centers 0 0 none
  intro l
  induction l with
  | nil => intro k b m; rfl
  | cons x xs ih =>
    intro k b m
    cases m with
    | none =>
      exact ih (k + 1) k (some (sqDist p x))
    | some mv =>
      by_cases hd : sqDist p x < mv
      · simp only [List.enumFrom_cons, List.foldl_cons, if_pos hd,
          KMeans.argminGo, hd, if_true]
        exact ih (k + 1) k (some (sqDist p x))
      · simp only [List.enumFrom_cons, List.foldl_cons, if_neg hd,
          KMeans.argminGo, hd, if_false]
        exact ih (k + 1) b (some mv)

/-- Characterization of the recursive argmin walk when started with a
finite current minimum m: either no centroid beats m and the running best
index is kept, or the result is the offset index of the first centroid
attaining the minimal distance, that distance being strictly below m and
strictly below every earlier centroid's distance. -/
theorem argminGo_some_spec {α : Type} [LinearOrderedField α] (p : Pt α) :
    ∀ (l : List (Pt α)) (k b : ℕ) (m : α),
      (KMeans.argminGo p l k b (some m) = b ∧
        ∀ idx, idx < l.length → m ≤ sqDist p (l.getD idx ⟨0, 0⟩)) ∨
      (∃ idx, idx < l.length ∧
        KMeans.argminGo p l k b (some m) = k + idx ∧
        sqDist p (l.getD idx ⟨0, 0⟩) < m ∧
        (∀ j, j < l.length →
          sqDist p (l.getD idx ⟨0, 0⟩) ≤ sqDist p (l.getD j ⟨0, 0⟩)) ∧
        (∀ j, j < idx →
          sqDist p (l.getD idx ⟨0, 0⟩) < sqDist p (l.getD j ⟨0, 0⟩))) := by
  intro l
  induction l with
  | nil =>
    intro k b m
    left
    exact ⟨rfl, fun idx h => absurd h (Nat.not_lt_zero idx)⟩
  | cons x xs ih =>
    intro k b m
    by_cases hd : sqDist p x < m
    · have hgo : KMeans.argminGo p (x :: xs) k b (some m)
          = KMeans.argminGo p xs (k + 1) k (some (sqDist p x)) := by
        simp [KMeans.argminGo, hd]
      rcases ih (k + 1) k (sqDist p x) with ⟨heq, hall⟩ |
        ⟨idx, hlen, heq, hlt, hle, hfirst⟩
      · right
        refine ⟨0, Nat.succ_pos _, ?_, hd, ?_, fun j hj => absurd hj
          (Nat.not_lt_zero j)⟩
        · rw [hgo, heq, Nat.add_zero]
        · intro j hj
          cases j with
          | zero => exact le_refl _
          | succ j' => exact hall j' (Nat.lt_of_succ_lt_succ hj)
      · right
        refine ⟨idx + 1, Nat.succ_lt_succ hlen, ?_, lt_trans hlt hd, ?_, ?_⟩
        · rw [hgo, heq]
          omega
        · intro j hj
          cases j with
          | zero => exact le_of_lt hlt
          | succ j' => exact hle j' (Nat.lt_of_succ_lt_succ hj)
        · intro j hj
          cases j with
          | zero => exact hlt
          | succ j' => exact hfirst j' (Nat.lt_of_succ_lt_succ hj)
    · have hgo : KMeans.argminGo p (x :: xs) k b (some m)
          = KMeans.argminGo p xs (k + 1) b (some m) := by
        simp [KMeans.argminGo, hd]
      rcases ih (k + 1) b m with ⟨heq, hall⟩ |
        ⟨idx, hlen, heq, hlt, hle, hfirst⟩
      · left
        refine ⟨by rw [hgo, heq], ?_⟩
        intro idx hidx
        cases idx with
        | zero => exact le_of_not_lt hd
        | succ j' => exact hall j' (Nat.lt_of_succ_lt_succ hidx)
      · right
        refine ⟨idx + 1, Nat.succ_lt_succ hlen, ?_,  hlt, ?_, ?_⟩
        · rw [hgo, heq]
          omega
        · intro j hj
          cases j with
          | zero => exact le_of_lt (lt_of_lt_of_le hlt (le_of_not_lt hd))
          | succ j' => exact hle j' (Nat.lt_of_succ_lt_succ hj)
        · intro j hj
          cases j with
          | zero => exact lt_of_lt_of_le hlt (le_of_not_lt hd)
          | succ j' => exact hfirst j' (Nat.lt_of_succ_lt_succ hj)

/-- Characterization of the assignment of one point: for a non-empty
centroid list, assignCluster returns an in-range index of minimal squared
distance whose earlier centroids are all strictly farther. -/
theorem assignCluster_spec {α : Type} [LinearOrderedField α]
    (centers : List (Pt α)) (p : Pt α) (hne : centers ≠ []) :
    KMeans.assignCluster centers p < centers.length ∧
      (∀ j, j < centers.length →
        sqDist p (centers.getD (KMeans.assignCluster centers p) ⟨0, 0⟩)
          ≤ sqDist p (centers.getD j ⟨0, 0⟩)) ∧
      (∀ j, j < KMeans.assignCluster centers p →
        sqDist p (centers.getD (KMeans.assignCluster centers p) ⟨0, 0⟩)
          < sqDist p (centers.getD j ⟨0, 0⟩)) := by
  rcases centers with _ | ⟨x, xs⟩
  · exact absurd rfl hne
  · rw [assignCluster_eq_argminGo]
    have hgo : KMeans.argminGo p (x :: xs) 0 0 none
        = KMeans.argminGo p xs 1 0 (some (sqDist p x)) := rfl
    rw [hgo]
    rcases argminGo_some_spec p xs 1 0 (sqDist p x) with ⟨heq, hall⟩ |
      ⟨idx, hlen, heq, hlt, hle, hfirst⟩
    · rw [heq]
      refine ⟨Nat.succ_pos _, ?_, fun j hj => absurd hj (Nat.not_lt_zero j)⟩
      intro j hj
      cases j with
      | zero => exact le_refl _
      | succ j' => exact hall j' (Nat.lt_of_succ_lt_succ hj)
    · rw [heq]
      refine ⟨by rw [List.length_cons]; omega, ?_, ?_⟩
      · intro j hj
        have hx : (x :: xs).getD (1 + idx) ⟨0, 0⟩ = xs.getD idx ⟨0, 0⟩ := by
          rw [Nat.add_comm]
          rfl
        rw [hx]
        cases j with
        | zero => exact le_of_lt hlt
        | succ j' => exact hle j' (Nat.lt_of_succ_lt_succ hj)
      · intro j hj
        have hx : (x :: xs).getD (1 + idx) ⟨0, 0⟩ = xs.getD idx ⟨0, 0⟩ := by
          rw [Nat.add_comm]
          rfl
        rw [hx]
        cases j with
        | zero => exact hlt
        | succ j' =>
          exact hfirst j' (by omega)

/-- The per-cluster accumulation fold of the K-Means step adds, to any slot
that exists, the coordinate sums and the count of the assignments landing
on that slot. -/
theorem sums_foldl_get? {α : Type} [LinearOrderedField α] :
    ∀ (l : List (Pt α × ℕ)) (sums : List (α × α × ℕ)) (c : ℕ)
      (s : α × α × ℕ), sums.get? c = some s →
      (l.foldl
        (fun sums pc =>
          match sums.get? pc.2 with
          | some s => sums.set pc.2 (s.1 + pc.1.x, s.2.1 + pc.1.y, s.2.2 + 1)
          | none => sums) sums).get? c
        = some
          (s.1 + ((l.filter (fun pc => pc.2 = c)).map
            (fun pc => pc.1.x)).sum,
          s.2.1 + ((l.filter (fun pc => pc.2 = c)).map
            (fun pc => pc.1.y)).sum,
          s.2.2 + (l.filter (fun pc => pc.2 = c)).length) := by
  intro l
  induction l with
  | nil =>
    intro sums c s hsc
    simpa using hsc
  | cons pc t ih =>
    intro sums c s hsc
    rw [List.foldl_cons]
    rcases hs2 : sums.get? pc.2 with _ | s2
    · simp only [hs2]
      by_cases hc : pc.2 = c
      · rw [hc] at hs2
        rw [hs2] at hsc
        exact absurd hsc (by simp)
      · rw [ih sums c s hsc]
        simp [List.filter_cons, hc]
    · simp only [hs2]
      have hlt2 : pc.2 < sums.length := by
        by_contra hge
        rw [List.get?_eq_none.2 (Nat.le_of_not_lt hge)] at hs2
        exact absurd hs2 (by simp)
      by_cases hc : pc.2 = c
      · subst hc
        have hss : s2 = s := by
          rw [hs2] at hsc
          exact Option.some.injEq _ _ ▸ hsc.symm ▸ rfl
        subst hss
        have hset : (sums.set pc.2
            (s2.1 + pc.1.x, s2.2.1 + pc.1.y, s2.2.2 + 1)).get? pc.2
            = some (s2.1 + pc.1.x, s2.2.1 + pc.1.y, s2.2.2 + 1) :=
          List.get?_set_eq_of_lt _ hlt2
        rw [ih _ pc.2 _ hset]
        have hfilter : (pc :: t).filter (fun x => x.2 = pc.2)
            = pc :: t.filter (fun x => x.2 = pc.2) := by
          simp [List.filter_cons]
        rw [hfilter]
        simp only [List.map_cons, List.sum_cons, List.length_cons]
        refine congrArg some ?_
        simp only [Prod.mk.injEq]
        refine ⟨by ring, by ring, by omega⟩
      · have hset : (sums.set pc.2
            (s2.1 + pc.1.x, s2.2.1 + pc.1.y, s2.2.2 + 1)).get? c
            = sums.get? c := List.get?_set_ne _ _ hc
        rw [ih _ c s (hset.trans hsc)]
        simp [List.filter_cons, hc]

/-- The per-cluster accumulation fold preserves the slot count. -/
theorem sums_foldl_length {α : Type} [LinearOrderedField α] :
    ∀ (l : List (Pt α × ℕ)) (sums : List (α × α × ℕ)),
      (l.foldl
        (fun sums pc =>
          match sums.get? pc.2 with
          | some s => sums.set pc.2 (s.1 + pc.1.x, s.2.1 + pc.1.y, s.2.2 + 1)
          | none => sums) sums).length = sums.length := by
  intro l
  induction l with
  | nil => intro sums; rfl
  | cons pc t ih =>
    intro sums
    rw [List.foldl_cons]
    rcases hs2 : sums.get? pc.2 with _ | s2
    · simp only [hs2]
      exact ih sums
    · simp only [hs2]
      rw [ih _]
      exact List.length_set ..

/-- C3: one K-Means step assigns every point to the centroid of minimal
squared distance with ties broken by the lowest centroid index, so every
assigned cluster index lies in [0, k); it recomputes every centroid with
at least one assigned point as the mean of its assigned points, and
re-seeds every centroid with no assigned point from the fresh uniform
draws of the oracle (placed at rand·780+10 and rand·580+10 as in the
source) rather than leaving it at its previous location — in particular no
mean is ever formed over an empty cluster. -/
theorem c3_kmeans_step {α : Type} [LinearOrderedField α] (k : ℕ)
    (rand : ℕ → α × α) (centers points : List (Pt α))
    (hk : centers.length = k) (hpos : 0 < k) :
    (KMeans.step k rand centers points).1
        = points.map (fun p => (p, KMeans.assignCluster centers p)) ∧
      (∀ pc ∈ (KMeans.step k rand centers points).1,
        pc.2 < k ∧
          (∀ j, j < k →
            sqDist pc.1 (centers.getD pc.2 ⟨0, 0⟩)
              ≤ sqDist pc.1 (centers.getD j ⟨0, 0⟩)) ∧
          (∀ j, j < pc.2 →
            sqDist pc.1 (centers.getD pc.2 ⟨0, 0⟩)
              < sqDist pc.1 (centers.getD j ⟨0, 0⟩))) ∧
      (KMeans.step k rand centers points).2.length = k ∧
      (∀ c, c < k →
        ((points.filter (fun p => KMeans.assignCluster centers p = c)) ≠ []
          → (KMeans.step k rand centers points).2.getD c ⟨0, 0⟩
            = Pt.mk
              (((points.filter
                  (fun p => KMeans.assignCluster centers p = c)).map
                  (fun p => p.x)).sum
                / ((points.filter
                  (fun p => KMeans.assignCluster centers p = c)).length : α))
              (((points.filter
                  (fun p => KMeans.assignCluster centers p = c)).map
                  (fun p => p.y)).sum
                / ((points.filter
                  (fun p => KMeans.assignCluster centers p = c)).length
                  : α))) ∧
        ((points.filter (fun p => KMeans.assignCluster centers p = c)) = []
          → (KMeans.step k rand centers points).2.getD c ⟨0, 0⟩
            = Pt.mk ((rand c).1 * 780 + 10) ((rand c).2 * 580 + 10))) := by
  have hne : centers ≠ [] := by
    intro h
    rw [h] at hk
    simp at hk
    omega
  refine ⟨rfl, ?_, ?_, ?_⟩
  · intro pc hpc
    rcases List.mem_map.1 hpc with ⟨p, _, rfl⟩
    obtain ⟨ha, hb, hc⟩ := assignCluster_spec centers p hne
    rw [hk] at ha hb
    exact ⟨ha, hb, hc⟩
  · show ((KMeans.sumsOf k _).enum.map _).length = k
    rw [List.length_map, List.enum_length]
    have := sums_foldl_length
      (points.map (fun p => (p, KMeans.assignCluster centers p)))
      (List.replicate k ((0 : α), (0 : α), (0 : ℕ)))
    simpa [KMeans.sumsOf] using this
  · intro c hc
    set assigned := points.map (fun p => (p, KMeans.assignCluster centers p))
      with hassigned
    have hinit : (List.replicate k ((0 : α), (0 : α), (0 : ℕ))).get? c
        = some (0, 0, 0) := by
      rw [List.get?_eq_getElem?]
      simp [List.getElem?_replicate, hc]
    have hsums : (KMeans.sumsOf k assigned).get? c = some
        (((assigned.filter (fun pc => pc.2 = c)).map
          (fun pc => pc.1.x)).sum,
        ((assigned.filter (fun pc => pc.2 = c)).map
          (fun pc => pc.1.y)).sum,
        (assigned.filter (fun pc => pc.2 = c)).length) := by
      have := sums_foldl_get? assigned
        (List.replicate k ((0 : α), (0 : α), (0 : ℕ))) c (0, 0, 0) hinit
      simpa [KMeans.sumsOf] using this
    have hfiltermap : assigned.filter (fun pc => pc.2 = c)
        = (points.filter (fun p => KMeans.assignCluster centers p = c)).map
          (fun p => (p, KMeans.assignCluster centers p)) := by
      rw [hassigned, List.filter_map]
      rfl
    have hstep2 : (KMeans.step k rand centers points).2
        = (KMeans.sumsOf k assigned).enum.map
          (fun is =>
            if is.2.2.2 ≠ 0 then
              Pt.mk (is.2.1 / (is.2.2.2 : α)) (is.2.2.1 / (is.2.2.2 : α))
            else
              Pt.mk ((rand is.1).1 * 780 + 10) ((rand is.1).2 * 580 + 10))
        := rfl
    have henum : (KMeans.sumsOf k assigned).enum.get? c
        = some (c,
          (((assigned.filter (fun pc => pc.2 = c)).map
            (fun pc => pc.1.x)).sum,
          ((assigned.filter (fun pc => pc.2 = c)).map
            (fun pc => pc.1.y)).sum,
          (assigned.filter (fun pc => pc.2 = c)).length)) := by
      rw [List.get?_eq_getElem?, List.getElem?_enum]
      rw [List.get?_eq_getElem?] at hsums
      rw [hsums]
      rfl
    have hgetD : (KMeans.step k rand centers points).2.getD c ⟨0, 0⟩
        = (if (assigned.filter (fun pc => pc.2 = c)).length ≠ 0 then
            Pt.mk
              (((assigned.filter (fun pc => pc.2 = c)).map
                (fun pc => pc.1.x)).sum
                / ((assigned.filter (fun pc => pc.2 = c)).length : α))
              (((assigned.filter (fun pc => pc.2 = c)).map
                (fun pc => pc.1.y)).sum
                / ((assigned.filter (fun pc => pc.2 = c)).length : α))
          else Pt.mk ((rand c).1 * 780 + 10) ((rand c).2 * 580 + 10)) := by
      rw [hstep2, List.getD_eq_get?, List.get?_map, henum]
      rfl
    have hmembers : (assigned.filter (fun pc => pc.2 = c)).length
        = (points.filter (fun p => KMeans.assignCluster centers p = c)).length
      := by
      rw [hfiltermap, List.length_map]
    constructor
    · intro hmem
      have hcnt : (points.filter
          (fun p => KMeans.assignCluster centers p = c)).length ≠ 0 := by
        simpa [List.length_eq_zero] using hmem
      rw [hgetD, if_pos (by rw [hmembers]; exact hcnt)]
      rw [hfiltermap]
      simp only [List.map_map, List.length_map]
      rfl
    · intro hmem
      have hcnt : (assigned.filter (fun pc => pc.2 = c)).length = 0 := by
        rw [hmembers, hmem]
        rfl
      rw [hgetD, if_neg (by simp [hcnt])]

/-- Witness for C3 at one centroid and one point: the hypotheses hold and
the step's assignment list is as characterized. -/
theorem c3_kmeans_step_witness :
    ([(⟨0, 0⟩ : Pt ℚ)].length = 1) ∧ (0 < 1) ∧
      (KMeans.step 1 (fun _ => ((0 : ℚ), 0)) [⟨0, 0⟩] [⟨1, 1⟩]).1
        = [(⟨1, 1⟩ : Pt ℚ)].map
          (fun p => (p, KMeans.assignCluster [⟨0, 0⟩] p)) :=
  ⟨by decide, by decide,
    (c3_kmeans_step 1 (fun _ => ((0 : ℚ), 0)) [⟨0, 0⟩] [⟨1, 1⟩]
      (by decide) (by decide)).1⟩

/-- One SOM training step leaves every neuron's topological coordinate
(i, j) unchanged: the step only rebuilds the weight fields x and y. -/
theorem somStep_coords {α : Type} [LinearOrderedField α] (expF : α → α)
    (hypF : α → α → α) (lr sigma : α) (iterations : ℕ) (point : Pt α)
    (iter : ℕ) (grid : List (SOM.Neuron α)) :
    (SOM.somStep expF hypF lr sigma iterations point iter grid).map
        (fun n => (n.i, n.j))
      = grid.map (fun n => (n.i, n.j)) := by
  unfold SOM.somStep
  rw [List.map_map]
  rfl

/-- The coordinate projection of the initial SOM grid is the product list
of the two index ranges. -/
theorem initGrid_coords {α : Type} [LinearOrderedField α] (gridSize : ℕ) :
    (SOM.initGrid (α := α) gridSize).map (fun n => (n.i, n.j))
      = (List.range gridSize) ×ˢ (List.range gridSize) := by
  unfold SOM.initGrid
  rw [List.map_flatMap]
  simp only [List.map_map]
  rfl

/-- C9: SOM training modifies only weight vectors — after any number of
training steps the list of topological coordinates (i, j) is exactly the
one assigned at initialization, and that list is a bijection onto
[0, gridSize)²: duplicate-free and containing precisely the pairs with
both components below gridSize. -/
theorem c9_som_topology {α : Type} [LinearOrderedField α] (expF : α → α)
    (hypF : α → α → α) (pick : ℕ → Pt α) (gridSize : ℕ) (lr sigma : α)
    (iterations frame : ℕ) :
    (SOM.renderSOMGrid expF hypF pick gridSize lr sigma iterations
        frame).map (fun n => (n.i, n.j))
      = (SOM.initGrid (α := α) gridSize).map (fun n => (n.i, n.j)) ∧
      ((SOM.initGrid (α := α) gridSize).map (fun n => (n.i, n.j))).Nodup ∧
      (∀ p : ℕ × ℕ,
        p ∈ (SOM.initGrid (α := α) gridSize).map (fun n => (n.i, n.j))
          ↔ p.1 < gridSize ∧ p.2 < gridSize) := by
  refine ⟨?_, ?_, ?_⟩
  · unfold SOM.renderSOMGrid
    have hfold : ∀ (l : List ℕ) (grid : List (SOM.Neuron α)),
        (l.foldl
          (fun grid iter =>
            SOM.somStep expF hypF lr sigma iterations (pick iter) iter grid)
          grid).map (fun n => (n.i, n.j))
          = grid.map (fun n => (n.i, n.j)) := by
      intro l
      induction l with
      | nil => intro grid; rfl
      | cons it t ih =>
        intro grid
        rw [List.foldl_cons, ih, somStep_coords]
    exact hfold _ _
  · rw [initGrid_coords]
    exact List.Nodup.product (List.nodup_range gridSize)
      (List.nodup_range gridSize)
  · intro p
    rw [initGrid_coords]
    rcases p with ⟨a, b⟩
    rw [List.mem_product]
    simp [List.mem_range]

/-- find? only depends on the pointwise values of its predicate on the
list's members. -/
theorem find?_congr_members {β : Type} :
    ∀ (l : List β) (p q : β → Bool), (∀ x ∈ l, p x = q x) →
      l.find? p = l.find? q := by
  intro l
  induction l with
  | nil => intro p q _; rfl
  | cons x t ih =>
    intro p q h
    have hx := h x (List.mem_cons_self x t)
    rcases hp : p x with _ | _
    · rw [List.find?_cons_of_neg _ (by simp [hp]),
        List.find?_cons_of_neg _ (by simp [← hx, hp])]
      exact ih p q (fun y hy => h y (List.mem_cons_of_mem x hy))
    · rw [List.find?_cons_of_pos _ hp, List.find?_cons_of_pos _ (hx ▸ hp)]

/-- A fold whose body skips elements failing a predicate equals the fold
of the filtered list. -/
theorem foldl_if_skip {β γ : Type} (p : β → Prop) [DecidablePred p]
    (G : γ → β → γ) :
    ∀ (l : List β) (acc : γ),
      l.foldl (fun acc c => if p c then G acc c else acc) acc
        = (l.filter (fun c => p c)).foldl G acc := by
  intro l
  induction l with
  | nil => intro acc; rfl
  | cons c t ih =>
    intro acc
    rw [List.foldl_cons, List.filter_cons]
    by_cases hc : p c
    · rw [if_pos hc, if_pos (by simpa using hc), List.foldl_cons, ih]
    · rw [if_neg hc, if_neg (by simpa using hc), ih]

/-- The running-best fold of findBestSplit selects the first candidate
attaining the maximal gain, provided that gain strictly exceeds the
accumulator's: folding the strict-improvement update over a candidate list
returns the untouched accumulator when no candidate's gain strictly
exceeds it, and otherwise the record built from the first candidate whose
gain is maximal over the whole list. -/
theorem foldl_best_spec {α : Type} [LinearOrderedField α]
    (impurityFn : List ℤ → α) (data : List (IrisPoint α)) (parent : α) :
    ∀ (l : List (ℕ × α)) (acc : Tree.BestAcc α),
      l.foldl
        (fun acc c =>
          if Tree.gainOf impurityFn data c.1 c.2 > acc.bestGain then
            ⟨Tree.gainOf impurityFn data c.1 c.2, some c.1, some c.2,
              parent⟩
          else acc) acc
        = (match l.find?
            (fun c =>
              decide (acc.bestGain < Tree.gainOf impurityFn data c.1 c.2) &&
                decide (∀ d ∈ l, Tree.gainOf impurityFn data d.1 d.2
                  ≤ Tree.gainOf impurityFn data c.1 c.2)) with
          | some c => (⟨Tree.gainOf impurityFn data c.1 c.2, some c.1,
              some c.2, parent⟩ : Tree.BestAcc α)
          | none => acc) := by
  intro l
  induction l with
  | nil => intro acc; rfl
  | cons c t ih =>
    intro acc
    rw [List.foldl_cons]
    by_cases hc : acc.bestGain < Tree.gainOf impurityFn data c.1 c.2
    · rw [if_pos hc]
      rw [ih ⟨Tree.gainOf impurityFn data c.1 c.2, some c.1, some c.2,
        parent⟩]
      by_cases hmax : ∀ d ∈ t, Tree.gainOf impurityFn data d.1 d.2
          ≤ Tree.gainOf impurityFn data c.1 c.2
      · have houter : (c :: t).find?
            (fun x =>
              decide (acc.bestGain < Tree.gainOf impurityFn data x.1 x.2) &&
                decide (∀ d ∈ c :: t, Tree.gainOf impurityFn data d.1 d.2
                  ≤ Tree.gainOf impurityFn data x.1 x.2)) = some c := by
          apply List.find?_cons_of_pos
          simp only [Bool.and_eq_true, decide_eq_true_eq]
          refine ⟨hc, ?_⟩
          intro d hd
          rcases List.mem_cons.1 hd with rfl | hd'
          · exact le_refl _
          · exact hmax d hd'
        have hinner : t.find?
            (fun x =>
              decide (Tree.gainOf impurityFn data c.1 c.2
                < Tree.gainOf impurityFn data x.1 x.2) &&
                decide (∀ d ∈ t, Tree.gainOf impurityFn data d.1 d.2
                  ≤ Tree.gainOf impurityFn data x.1 x.2)) = none := by
          rw [List.find?_eq_none]
          intro d hd
          simp only [Bool.and_eq_true, decide_eq_true_eq, not_and]
          intro hgt
          exact absurd hgt (not_lt.2 (hmax d hd))
        rw [houter, hinner]
      · push_neg at hmax
        rcases hmax with ⟨d0, hd0, hgt0⟩
        have houter : (c :: t).find?
            (fun x =>
              decide (acc.bestGain < Tree.gainOf impurityFn data x.1 x.2) &&
                decide (∀ d ∈ c :: t, Tree.gainOf impurityFn data d.1 d.2
                  ≤ Tree.gainOf impurityFn data x.1 x.2))
            = t.find?
            (fun x =>
              decide (acc.bestGain < Tree.gainOf impurityFn data x.1 x.2) &&
                decide (∀ d ∈ c :: t, Tree.gainOf impurityFn data d.1 d.2
                  ≤ Tree.gainOf impurityFn data x.1 x.2)) := by
          apply List.find?_cons_of_neg
          simp only [Bool.and_eq_true, decide_eq_true_eq, not_and]
          intro _ hall
          exact absurd (hall d0 (List.mem_cons_of_mem c hd0))
            (not_le.2 hgt0)
        rw [houter]
        have hcong := find?_congr_members t
          (fun x =>
            decide (acc.bestGain < Tree.gainOf impurityFn data x.1 x.2) &&
              decide (∀ d ∈ c :: t, Tree.gainOf impurityFn data d.1 d.2
                ≤ Tree.gainOf impurityFn data x.1 x.2))
          (fun x =>
            decide (Tree.gainOf impurityFn data c.1 c.2
              < Tree.gainOf impurityFn data x.1 x.2) &&
              decide (∀ d ∈ t, Tree.gainOf impurityFn data d.1 d.2
                ≤ Tree.gainOf impurityFn data x.1 x.2))
          (by
            intro x hx
            rw [Bool.eq_iff_iff]
            simp only [Bool.and_eq_true, decide_eq_true_eq]
            constructor
            · rintro ⟨_, hall⟩
              have hcx : Tree.gainOf impurityFn data c.1 c.2
                  < Tree.gainOf impurityFn data x.1 x.2 :=
                lt_of_lt_of_le hgt0 (hall d0 (List.mem_cons_of_mem c hd0))
              exact ⟨hcx, fun d hd => hall d (List.mem_cons_of_mem c hd)⟩
            · rintro ⟨hcx, hall⟩
              refine ⟨lt_trans hc hcx, ?_⟩
              intro d hd
              rcases List.mem_cons.1 hd with rfl | hd'
              · exact le_of_lt hcx
              · exact hall d hd')
        rw [hcong]
        rw [show (fun x : ℕ × α =>
            decide ((⟨Tree.gainOf impurityFn data c.1 c.2, some c.1,
              some c.2, parent⟩ : Tree.BestAcc α).bestGain
                < Tree.gainOf impurityFn data x.1 x.2) &&
              decide (∀ d ∈ t, Tree.gainOf impurityFn data d.1 d.2
                ≤ Tree.gainOf impurityFn data x.1 x.2))
          = (fun x : ℕ × α =>
            decide (Tree.gainOf impurityFn data c.1 c.2
              < Tree.gainOf impurityFn data x.1 x.2) &&
              decide (∀ d ∈ t, Tree.gainOf impurityFn data d.1 d.2
                ≤ Tree.gainOf impurityFn data x.1 x.2)) from rfl]
        rcases hargm : t.argmax
            (fun d => Tree.gainOf impurityFn data d.1 d.2) with _ | xstar
        · rw [List.argmax_eq_none.1 hargm] at hd0
          exact absurd hd0 (List.not_mem_nil d0)
        · have hxmem : xstar ∈ t := List.argmax_mem hargm
          have hxmax : ∀ d ∈ t, Tree.gainOf impurityFn data d.1 d.2
              ≤ Tree.gainOf impurityFn data xstar.1 xstar.2 :=
            fun d hd => List.le_of_mem_argmax hd hargm
          have hpx : (fun x : ℕ × α =>
              decide (Tree.gainOf impurityFn data c.1 c.2
                < Tree.gainOf impurityFn data x.1 x.2) &&
                decide (∀ d ∈ t, Tree.gainOf impurityFn data d.1 d.2
                  ≤ Tree.gainOf impurityFn data x.1 x.2)) xstar = true := by
            simp only [Bool.and_eq_true, decide_eq_true_eq]
            exact ⟨lt_of_lt_of_le hgt0 (hxmax d0 hd0), hxmax⟩
          rcases hfind : t.find?
              (fun x : ℕ × α =>
                decide (Tree.gainOf impurityFn data c.1 c.2
                  < Tree.gainOf impurityFn data x.1 x.2) &&
                  decide (∀ d ∈ t, Tree.gainOf impurityFn data d.1 d.2
                    ≤ Tree.gainOf impurityFn data x.1 x.2)) with _ | d
          · exact absurd hpx (List.find?_eq_none.1 hfind xstar hxmem)
          · rfl
    · rw [if_neg hc]
      rw [ih acc]
      have houter : (c :: t).find?
          (fun x =>
            decide (acc.bestGain < Tree.gainOf impurityFn data x.1 x.2) &&
              decide (∀ d ∈ c :: t, Tree.gainOf impurityFn data d.1 d.2
                ≤ Tree.gainOf impurityFn data x.1 x.2))
          = t.find?
          (fun x =>
            decide (acc.bestGain < Tree.gainOf impurityFn data x.1 x.2) &&
              decide (∀ d ∈ c :: t, Tree.gainOf impurityFn data d.1 d.2
                ≤ Tree.gainOf impurityFn data x.1 x.2)) := by
        apply List.find?_cons_of_neg
        simp only [Bool.and_eq_true, decide_eq_true_eq, not_and]
        intro hlt
        exact absurd hlt hc
      rw [houter]
      have hcong := find?_congr_members t
        (fun x =>
          decide (acc.bestGain < Tree.gainOf impurityFn data x.1 x.2) &&
            decide (∀ d ∈ c :: t, Tree.gainOf impurityFn data d.1 d.2
              ≤ Tree.gainOf impurityFn data x.1 x.2))
        (fun x =>
          decide (acc.bestGain < Tree.gainOf impurityFn data x.1 x.2) &&
            decide (∀ d ∈ t, Tree.gainOf impurityFn data d.1 d.2
              ≤ Tree.gainOf impurityFn data x.1 x.2))
        (by
          intro x hx
          rw [Bool.eq_iff_iff]
          simp only [Bool.and_eq_true, decide_eq_true_eq]
          constructor
          · rintro ⟨hax, hall⟩
            exact ⟨hax, fun d hd => hall d (List.mem_cons_of_mem c hd)⟩
          · rintro ⟨hax, hall⟩
            refine ⟨hax, ?_⟩
            intro d hd
            rcases List.mem_cons.1 hd with rfl | hd'
            · exact le_of_lt (lt_of_le_of_lt (not_lt.1 hc) hax)
            · exact hall d hd')
      rw [hcong]

/-- The inner loop body of findBestSplit, rephrased as a guarded update:
a candidate is applied only when both partitions are non-empty. -/
theorem splitStep_eq {α : Type} [LinearOrderedField α]
    (impurityFn : List ℤ → α) (data : List (IrisPoint α)) (f : ℕ)
    (acc : Tree.BestAcc α) (t : α) :
    Tree.splitStep impurityFn data f acc t
      = if ((data.filter (fun p => Tree.featVal f p ≤ t)).length ≠ 0 ∧
            (data.filter (fun p => ¬ Tree.featVal f p ≤ t)).length ≠ 0) then
          (if Tree.gainOf impurityFn data f t > acc.bestGain then
            ⟨Tree.gainOf impurityFn data f t, some f, some t,
              impurityFn (data.map (fun p => labelMap p.species))⟩
          else acc)
        else acc := by
  simp only [Tree.splitStep]
  by_cases h : (data.filter (fun p => Tree.featVal f p ≤ t)).length = 0 ∨
      (data.filter (fun p => ¬ Tree.featVal f p ≤ t)).length = 0
  · rw [if_pos h]
    rw [if_neg (show
      ¬((data.filter (fun p => Tree.featVal f p ≤ t)).length ≠ 0 ∧
        (data.filter (fun p => ¬ Tree.featVal f p ≤ t)).length ≠ 0)
      by tauto)]
  · rw [if_neg h]
    rw [if_pos (show
      ((data.filter (fun p => Tree.featVal f p ≤ t)).length ≠ 0 ∧
        (data.filter (fun p => ¬ Tree.featVal f p ≤ t)).length ≠ 0)
      by tauto)]

/-- The nested feature/threshold loops of findBestSplit flatten to a
single fold over the feature-threshold pairs in
lowest-feature-then-lowest-threshold order. -/
theorem foldl_features_flatten {α : Type} [LinearOrderedField α]
    (impurityFn : List ℤ → α) (data : List (IrisPoint α)) :
    ∀ (features : List ℕ) (acc : Tree.BestAcc α),
      features.foldl
        (fun acc feature =>
          (Tree.midpoints (Tree.sortedVals data feature)).foldl
            (Tree.splitStep impurityFn data feature) acc) acc
        = (features.flatMap
            (fun f => (Tree.midpoints (Tree.sortedVals data f)).map
              (fun t => (f, t)))).foldl
            (fun acc c => Tree.splitStep impurityFn data c.1 acc c.2)
            acc := by
  intro features
  induction features with
  | nil => intro acc; rfl
  | cons f fs ih =>
    intro acc
    rw [List.foldl_cons, List.flatMap_cons, List.foldl_append,
      List.foldl_map, ih]

/-- C2: findBestSplit considers exactly the valid midpoint candidates in
lowest-feature-then-lowest-threshold order and returns the first candidate
of maximal, strictly positive information gain (the record carrying the
parent impurity), and no split at all when the dataset is below
minSamplesSplit or no candidate has strictly positive gain. -/
theorem c2_findBestSplit_spec {α : Type} [LinearOrderedField α]
    (impurityFn : List ℤ → α) (data : List (IrisPoint α))
    (minSamplesSplit : ℕ) (features : List ℕ) :
    Tree.findBestSplit impurityFn data minSamplesSplit features
      = if data.length < minSamplesSplit then none
        else
          match Tree.specBestSplit impurityFn data features with
          | none => none
          | some c => some ⟨some c.1, some c.2,
              some (impurityFn (data.map (fun p => labelMap p.species)))⟩
      := by
  simp only [Tree.findBestSplit]
  by_cases hlen : data.length < minSamplesSplit
  · rw [if_pos hlen, if_pos hlen]
  · rw [if_neg hlen, if_neg hlen]
    rw [foldl_features_flatten]
    have hstep : (fun (acc : Tree.BestAcc α) (c : ℕ × α) =>
        Tree.splitStep impurityFn data c.1 acc c.2)
        = (fun acc c =>
          if ((data.filter (fun p => Tree.featVal c.1 p ≤ c.2)).length ≠ 0 ∧
              (data.filter
                (fun p => ¬ Tree.featVal c.1 p ≤ c.2)).length ≠ 0) then
            (if Tree.gainOf impurityFn data c.1 c.2 > acc.bestGain then
              ⟨Tree.gainOf impurityFn data c.1 c.2, some c.1, some c.2,
                impurityFn (data.map (fun p => labelMap p.species))⟩
            else acc)
          else acc) := by
      funext acc c
      exact splitStep_eq impurityFn data c.1 acc c.2
    rw [hstep]
    rw [foldl_if_skip
      (fun c : ℕ × α =>
        (data.filter (fun p => Tree.featVal c.1 p ≤ c.2)).length ≠ 0 ∧
          (data.filter (fun p => ¬ Tree.featVal c.1 p ≤ c.2)).length ≠ 0)
      (fun (acc : Tree.BestAcc α) (c : ℕ × α) =>
        if Tree.gainOf impurityFn data c.1 c.2 > acc.bestGain then
          ⟨Tree.gainOf impurityFn data c.1 c.2, some c.1, some c.2,
            impurityFn (data.map (fun p => labelMap p.species))⟩
        else acc)]
    rw [show ((features.flatMap
        (fun f => (Tree.midpoints (Tree.sortedVals data f)).map
          (fun t => (f, t)))).filter
        (fun c : ℕ × α =>
          decide ((data.filter
              (fun p => Tree.featVal c.1 p ≤ c.2)).length ≠ 0 ∧
            (data.filter
              (fun p => ¬ Tree.featVal c.1 p ≤ c.2)).length ≠ 0)))
      = Tree.validCands data features from rfl]
    rw [foldl_best_spec impurityFn data
      (impurityFn (data.map (fun p => labelMap p.species)))
      (Tree.validCands data features)
      ⟨0, none, none, impurityFn (data.map (fun p => labelMap p.species))⟩]
    rw [show (fun c : ℕ × α =>
        decide ((⟨0, none, none,
          impurityFn (data.map (fun p => labelMap p.species))⟩
            : Tree.BestAcc α).bestGain
              < Tree.gainOf impurityFn data c.1 c.2) &&
          decide (∀ d ∈ Tree.validCands data features,
            Tree.gainOf impurityFn data d.1 d.2
              ≤ Tree.gainOf impurityFn data c.1 c.2))
      = (fun c : ℕ × α =>
        decide ((0 : α) < Tree.gainOf impurityFn data c.1 c.2) &&
          decide (∀ d ∈ Tree.validCands data features,
            Tree.gainOf impurityFn data d.1 d.2
              ≤ Tree.gainOf impurityFn data c.1 c.2)) from rfl]
    have hsbs : Tree.specBestSplit impurityFn data features
        = (Tree.validCands data features).find?
          (fun c : ℕ × α =>
            decide ((0 : α) < Tree.gainOf impurityFn data c.1 c.2) &&
              decide (∀ d ∈ Tree.validCands data features,
                Tree.gainOf impurityFn data d.1 d.2
                  ≤ Tree.gainOf impurityFn data c.1 c.2)) := rfl
    rw [← hsbs]
    rcases hfind : Tree.specBestSplit impurityFn data features with _ | c
    · simp
    · have hp := List.find?_some (hsbs ▸ hfind)
      simp only [Bool.and_eq_true, decide_eq_true_eq] at hp
      have hne : Tree.gainOf impurityFn data c.1 c.2 ≠ 0 :=
        ne_of_gt hp.1
      rw [if_neg hne]

/-- getD after set at the written, in-range index. -/
theorem getD_set_self (l : List ℤ) (n : ℕ) (v : ℤ) (h : n < l.length) :
    (l.set n v).getD n 0 = v := by
  rw [List.getD_eq_get?, List.get?_set_eq_of_lt _ h]
  rfl

/-- getD after set at any other index. -/
theorem getD_set_other (l : List ℤ) (m n : ℕ) (v : ℤ) (h : m ≠ n) :
    (l.set m v).getD n 0 = l.getD n 0 := by
  rw [List.getD_eq_get?, List.getD_eq_get?, List.get?_set_ne _ _ h]

/-- The expansion loop of expandCluster only relabels entries that were
noise (−1) or unvisited (−2), always to the cluster id, and preserves the
label list's length. -/
theorem expandLoop_effects {α : Type} [LinearOrderedCommRing α]
    (pts : List (Pt α)) (eps : α) (minPts : ℕ) (cluster : ℤ) :
    ∀ (fuel : ℕ) (labels : List ℤ) (neighbors : List ℕ) (i : ℕ),
      (DBSCAN.expandLoop pts eps minPts cluster labels neighbors i
        fuel).length = labels.length ∧
      (∀ j : ℕ,
        (DBSCAN.expandLoop pts eps minPts cluster labels neighbors i
          fuel).getD j 0 = labels.getD j 0 ∨
        ((labels.getD j 0 = -1 ∨ labels.getD j 0 = -2) ∧
          (DBSCAN.expandLoop pts eps minPts cluster labels neighbors i
            fuel).getD j 0 = cluster)) := by
  intro fuel
  induction fuel with
  | zero =>
    intro labels neighbors i
    exact ⟨rfl, fun j => Or.inl rfl⟩
  | succ fuel ih =>
    intro labels neighbors i
    show (DBSCAN.expandLoop pts eps minPts cluster labels neighbors i
        (fuel + 1)).length = labels.length ∧ _
    rw [DBSCAN.expandLoop]
    by_cases hi : i < neighbors.length
    · rw [if_pos hi]
      by_cases h1 : labels.getD (neighbors.getD i 0) 0 = -1
      · rw [if_pos h1]
        have hset := ih (labels.set (neighbors.getD i 0) cluster)
          (if minPts ≤
              (DBSCAN.getNeighbors pts eps (neighbors.getD i 0)).length then
            (DBSCAN.getNeighbors pts eps (neighbors.getD i 0)).foldl
              (fun acc x => if x ∈ acc then acc else acc ++ [x]) neighbors
          else neighbors) (i + 1)
        refine ⟨by rw [hset.1, List.length_set], ?_⟩
        intro j
        rcases hset.2 j with heq | ⟨hold, hnew⟩
        · by_cases hj : neighbors.getD i 0 = j
          · subst hj
            by_cases hr : neighbors.getD i 0 < labels.length
            · right
              rw [heq, getD_set_self _ _ _ hr]
              exact ⟨Or.inl h1, rfl⟩
            · left
              rw [heq, List.set_eq_of_length_le (Nat.le_of_not_lt hr)]
          · left
            rw [heq, getD_set_other _ _ _ _ hj]
        · by_cases hj : neighbors.getD i 0 = j
          · subst hj
            by_cases hr : neighbors.getD i 0 < labels.length
            · right
              exact ⟨Or.inl h1, hnew⟩
            · rw [List.set_eq_of_length_le (Nat.le_of_not_lt hr)] at hold
              right
              exact ⟨hold, hnew⟩
          · rw [getD_set_other _ _ _ _ hj] at hold
            right
            exact ⟨hold, hnew⟩
      · rw [if_neg h1]
        by_cases h2 : labels.getD (neighbors.getD i 0) 0 = -2
        · rw [if_pos h2]
          have hset := ih (labels.set (neighbors.getD i 0) cluster)
            neighbors (i + 1)
          refine ⟨by rw [hset.1, List.length_set], ?_⟩
          intro j
          rcases hset.2 j with heq | ⟨hold, hnew⟩
          · by_cases hj : neighbors.getD i 0 = j
            · subst hj
              by_cases hr : neighbors.getD i 0 < labels.length
              · right
                rw [heq, getD_set_self _ _ _ hr]
                exact ⟨Or.inr h2, rfl⟩
              · left
                rw [heq, List.set_eq_of_length_le (Nat.le_of_not_lt hr)]
            · left
              rw [heq, getD_set_other _ _ _ _ hj]
          · by_cases hj : neighbors.getD i 0 = j
            · subst hj
              by_cases hr : neighbors.getD i 0 < labels.length
              · right
                exact ⟨Or.inr h2, hnew⟩
              · rw [List.set_eq_of_length_le (Nat.le_of_not_lt hr)] at hold
                right
                exact ⟨hold, hnew⟩
            · rw [getD_set_other _ _ _ _ hj] at hold
              right
              exact ⟨hold, hnew⟩
        · rw [if_neg h2]
          exact ih labels neighbors (i + 1)
    · rw [if_neg hi]
      exact ⟨rfl, fun j => Or.inl rfl⟩

/-- Every member of the merge fold used by expandCluster comes from the
accumulator or from the appended list. -/
theorem mergeFold_mem {x : ℕ} : ∀ (l acc : List ℕ),
    x ∈ l.foldl (fun acc y => if y ∈ acc then acc else acc ++ [y]) acc →
    x ∈ acc ∨ x ∈ l := by
  intro l
  induction l with
  | nil =>
    intro acc h
    exact Or.inl h
  | cons y t ih =>
    intro acc h
    rcases ih _ h with h' | h'
    · have h2 : x ∈ (if y ∈ acc then acc else acc ++ [y]) := h'
      by_cases hy : y ∈ acc
      · rw [if_pos hy] at h2
        exact Or.inl h2
      · rw [if_neg hy, List.mem_append, List.mem_singleton] at h2
        rcases h2 with h2 | h2
        · exact Or.inl h2
        · exact Or.inr (h2 ▸ List.mem_cons_self y t)
    · exact Or.inr (List.mem_cons_of_mem y h')

/-- The merge fold used by expandCluster keeps the worklist
duplicate-free. -/
theorem mergeFold_nodup : ∀ (l acc : List ℕ), acc.Nodup →
    (l.foldl (fun acc y => if y ∈ acc then acc else acc ++ [y]) acc).Nodup := by
  intro l
  induction l with
  | nil =>
    intro acc h
    exact h
  | cons y t ih =>
    intro acc h
    refine ih _ ?_
    show (if y ∈ acc then acc else acc ++ [y]).Nodup
    by_cases hy : y ∈ acc
    · rw [if_pos hy]
      exact h
    · rw [if_neg hy]
      rw [List.nodup_append]
      exact ⟨h, List.nodup_singleton y,
        fun a ha hb => hy ((List.mem_singleton.mp hb) ▸ ha)⟩

/-- Every neighbor index returned by getNeighbors is in range. -/
theorem getNeighbors_lt {α : Type} [LinearOrderedCommRing α]
    (pts : List (Pt α)) (eps : α) (i x : ℕ)
    (h : x ∈ DBSCAN.getNeighbors pts eps i) : x < pts.length :=
  List.mem_range.mp (List.mem_filter.mp h).1

/-- A duplicate-free list of naturals below n has at most n entries. -/
theorem nodup_lt_length (l : List ℕ) (n : ℕ) (hnd : l.Nodup)
    (hb : ∀ x ∈ l, x < n) : l.length ≤ n := by
  have h := List.Subperm.length_le
    (hnd.subperm (fun x hx => List.mem_range.mpr (hb x hx)))
  simpa using h

/-- One extra unit of fuel changes nothing once the fuel covers the
remaining part of a duplicate-free, in-range worklist: from position i, at
most pts.length − i iterations can still happen. -/
theorem expandLoop_fuel_succ {α : Type} [LinearOrderedCommRing α]
    (pts : List (Pt α)) (eps : α) (minPts : ℕ) (cluster : ℤ) :
    ∀ (fuel : ℕ) (labels : List ℤ) (neighbors : List ℕ) (i : ℕ),
      neighbors.Nodup → (∀ x ∈ neighbors, x < pts.length) →
      pts.length ≤ fuel + i →
      DBSCAN.expandLoop pts eps minPts cluster labels neighbors i fuel
        = DBSCAN.expandLoop pts eps minPts cluster labels neighbors i
            (fuel + 1) := by
  intro fuel
  induction fuel with
  | zero =>
    intro labels neighbors i hnd hb hfi
    have hguard : ¬ i < neighbors.length := by
      have := nodup_lt_length neighbors pts.length hnd hb
      omega
    rw [DBSCAN.expandLoop, DBSCAN.expandLoop, if_neg hguard]
  | succ fuel ih =>
    intro labels neighbors i hnd hb hfi
    rw [DBSCAN.expandLoop]
    conv_rhs => rw [DBSCAN.expandLoop]
    by_cases hguard : i < neighbors.length
    · rw [if_pos hguard, if_pos hguard]
      by_cases h1 : labels.getD (neighbors.getD i 0) 0 = -1
      · rw [if_pos h1, if_pos h1]
        have hnd2 : (if minPts ≤ (DBSCAN.getNeighbors pts eps
              (neighbors.getD i 0)).length then
            (DBSCAN.getNeighbors pts eps (neighbors.getD i 0)).foldl
              (fun acc x => if x ∈ acc then acc else acc ++ [x]) neighbors
          else neighbors).Nodup := by
          split_ifs
          · exact mergeFold_nodup _ _ hnd
          · exact hnd
        have hb2 : ∀ x ∈ (if minPts ≤ (DBSCAN.getNeighbors pts eps
              (neighbors.getD i 0)).length then
            (DBSCAN.getNeighbors pts eps (neighbors.getD i 0)).foldl
              (fun acc x => if x ∈ acc then acc else acc ++ [x]) neighbors
          else neighbors), x < pts.length := by
          split_ifs
          · intro x hx
            rcases mergeFold_mem _ _ hx with h | h
            · exact hb x h
            · exact getNeighbors_lt pts eps _ x h
          · exact hb
        exact ih _ _ _ hnd2 hb2 (by omega)
      · rw [if_neg h1, if_neg h1]
        by_cases h2 : labels.getD (neighbors.getD i 0) 0 = -2
        · rw [if_pos h2, if_pos h2]
          exact ih _ _ _ hnd hb (by omega)
        · rw [if_neg h2, if_neg h2]
          exact ih _ _ _ hnd hb (by omega)
    · rw [if_neg hguard, if_neg hguard]

/-- Fuel irrelevance: any fuel at least pts.length − i computes the same
result on a duplicate-free, in-range worklist, so the pts.length budget
used by expandCluster is faithful to the unbounded source loop. -/
theorem expandLoop_fuel_ge {α : Type} [LinearOrderedCommRing α]
    (pts : List (Pt α)) (eps : α) (minPts : ℕ) (cluster : ℤ) :
    ∀ (f2 f1 : ℕ) (labels : List ℤ) (neighbors : List ℕ) (i : ℕ),
      neighbors.Nodup → (∀ x ∈ neighbors, x < pts.length) →
      pts.length ≤ f1 + i → f1 ≤ f2 →
      DBSCAN.expandLoop pts eps minPts cluster labels neighbors i f1
        = DBSCAN.expandLoop pts eps minPts cluster labels neighbors i f2 := by
  intro f2
  induction f2 with
  | zero =>
    intro f1 labels neighbors i _ _ _ h12
    rw [Nat.le_zero.mp h12]
  | succ f2 ih =>
    intro f1 labels neighbors i hnd hb hfi h12
    by_cases hlt : f1 ≤ f2
    · rw [ih f1 labels neighbors i hnd hb hfi hlt]
      exact expandLoop_fuel_succ pts eps minPts cluster f2 labels neighbors i
        hnd hb (by omega)
    · have : f1 = f2 + 1 := by omega
      rw [this]

/-- expandCluster equals the expansion loop run with any fuel of at least
pts.length: the worklist starts as a filter of range pts.length, hence
duplicate-free and in range. -/
theorem expandCluster_fuel_faithful {α : Type} [LinearOrderedCommRing α]
    (pts : List (Pt α)) (eps : α) (minPts : ℕ) (labels : List ℤ)
    (pointIndex : ℕ) (cluster : ℤ) (fuel : ℕ)
    (hfuel : pts.length ≤ fuel) :
    DBSCAN.expandCluster pts eps minPts labels pointIndex
        (DBSCAN.getNeighbors pts eps pointIndex) cluster
      = DBSCAN.expandLoop pts eps minPts cluster
          (labels.set pointIndex cluster)
          (DBSCAN.getNeighbors pts eps pointIndex) 0 fuel := by
  rw [DBSCAN.expandCluster]
  exact expandLoop_fuel_ge pts eps minPts cluster fuel pts.length _ _ 0
    (List.Nodup.filter _ (List.nodup_range pts.length))
    (fun x hx => getNeighbors_lt pts eps pointIndex x hx)
    (by omega) hfuel

/-- Main-loop invariants of dbscan: visiting a list of in-range indices
starting from a label array of the right length whose entries are −2, −1 or
a cluster id in [1, ci], with every id in [1, ci] attained, yields a final
state of the same length whose counter only grew, where the −2-free entries
stay −2-free, every visited index ends −2-free, every entry is −2, −1 or an
id in [1, final counter], and every id up to the final counter is attained. -/
theorem dbscanLoop_invariants {α : Type} [LinearOrderedCommRing α]
    (pts : List (Pt α)) (eps : α) (minPts : ℕ) :
    ∀ (idxs : List ℕ) (labels : List ℤ) (ci : ℤ),
      labels.length = pts.length →
      0 ≤ ci →
      (∀ i ∈ idxs, i < pts.length) →
      (∀ j, j < pts.length →
        labels.getD j 0 = -2 ∨ labels.getD j 0 = -1 ∨
          (1 ≤ labels.getD j 0 ∧ labels.getD j 0 ≤ ci)) →
      (∀ c : ℤ, 1 ≤ c → c ≤ ci →
        ∃ j, j < pts.length ∧ labels.getD j 0 = c) →
      (DBSCAN.dbscanLoop pts eps minPts idxs (labels, ci)).1.length
          = pts.length ∧
      ci ≤ (DBSCAN.dbscanLoop pts eps minPts idxs (labels, ci)).2 ∧
      (∀ j, labels.getD j 0 ≠ -2 →
        (DBSCAN.dbscanLoop pts eps minPts idxs (labels, ci)).1.getD j 0
          ≠ -2) ∧
      (∀ i ∈ idxs,
        (DBSCAN.dbscanLoop pts eps minPts idxs (labels, ci)).1.getD i 0
          ≠ -2) ∧
      (∀ j, j < pts.length →
        (DBSCAN.dbscanLoop pts eps minPts idxs (labels, ci)).1.getD j 0 = -2 ∨
        (DBSCAN.dbscanLoop pts eps minPts idxs (labels, ci)).1.getD j 0 = -1 ∨
          (1 ≤ (DBSCAN.dbscanLoop pts eps minPts idxs
              (labels, ci)).1.getD j 0 ∧
            (DBSCAN.dbscanLoop pts eps minPts idxs (labels, ci)).1.getD j 0
              ≤ (DBSCAN.dbscanLoop pts eps minPts idxs (labels, ci)).2)) ∧
      (∀ c : ℤ, 1 ≤ c →
        c ≤ (DBSCAN.dbscanLoop pts eps minPts idxs (labels, ci)).2 →
        ∃ j, j < pts.length ∧
          (DBSCAN.dbscanLoop pts eps minPts idxs (labels, ci)).1.getD j 0
            = c) := by
  intro idxs
  induction idxs with
  | nil =>
    intro labels ci hlen hci _ h3 h4
    exact ⟨hlen, le_refl ci, fun j h => h, fun i h => absurd h (by simp),
      h3, h4⟩
  | cons i rest ih =>
    intro labels ci hlen hci hidx h3 h4
    have hi : i < pts.length := hidx i (List.mem_cons_self i rest)
    rw [DBSCAN.dbscanLoop]
    by_cases hs : labels.getD i 0 = -2
    · rw [if_neg (not_not_intro hs)]
      by_cases hlt : (DBSCAN.getNeighbors pts eps i).length < minPts
      · -- noise branch: the point is marked −1
        rw [if_pos hlt]
        have hinr : i < labels.length := by omega
        have fact1 : (labels.set i (-1)).getD i 0 = -1 :=
          getD_set_self _ _ _ hinr
        have fact2 : ∀ j, (labels.set i (-1)).getD j 0 = labels.getD j 0 ∨
            (labels.set i (-1)).getD j 0 = -1 := by
          intro j
          by_cases hj : i = j
          · subst hj
            exact Or.inr fact1
          · exact Or.inl (getD_set_other _ _ _ _ hj)
        have hI := ih (labels.set i (-1)) ci
          (by rw [List.length_set]; exact hlen) hci
          (fun x hx => hidx x (List.mem_cons_of_mem i hx))
          (by
            intro j hjn
            rcases fact2 j with heq | heq
            · rw [heq]; exact h3 j hjn
            · rw [heq]; exact Or.inr (Or.inl rfl))
          (by
            intro c hc1 hc2
            obtain ⟨j, hjn, hjv⟩ := h4 c hc1 hc2
            refine ⟨j, hjn, ?_⟩
            have hj : i ≠ j := by
              intro h
              rw [← h, hs] at hjv
              omega
            rw [getD_set_other _ _ _ _ hj]
            exact hjv)
        refine ⟨hI.1, hI.2.1, ?_, ?_, hI.2.2.2.2.1, hI.2.2.2.2.2⟩
        · intro j hj
          refine hI.2.2.1 j ?_
          rcases fact2 j with heq | heq <;> rw [heq]
          · exact hj
          · omega
        · intro x hx
          rcases List.mem_cons.mp hx with hx | hx
          · subst hx
            exact hI.2.2.1 x (by rw [fact1]; omega)
          · exact hI.2.2.2.1 x hx
      · -- core branch: a fresh cluster is expanded from the seed
        rw [if_neg hlt]
        have hinr : i < labels.length := by omega
        have heff := expandLoop_effects pts eps minPts (ci + 1) pts.length
          (labels.set i (ci + 1)) (DBSCAN.getNeighbors pts eps i) 0
        have hexp : DBSCAN.expandCluster pts eps minPts labels i
            (DBSCAN.getNeighbors pts eps i) (ci + 1)
            = DBSCAN.expandLoop pts eps minPts (ci + 1)
              (labels.set i (ci + 1)) (DBSCAN.getNeighbors pts eps i) 0
              pts.length := rfl
        rw [hexp] at *
        have fact1 : (DBSCAN.expandLoop pts eps minPts (ci + 1)
            (labels.set i (ci + 1)) (DBSCAN.getNeighbors pts eps i) 0
            pts.length).getD i 0 = ci + 1 := by
          rcases heff.2 i with heq | ⟨_, heq⟩
          · rw [heq]; exact getD_set_self _ _ _ hinr
          · exact heq
        have fact2 : ∀ j, (DBSCAN.expandLoop pts eps minPts (ci + 1)
            (labels.set i (ci + 1)) (DBSCAN.getNeighbors pts eps i) 0
            pts.length).getD j 0 = labels.getD j 0 ∨
            ((labels.getD j 0 = -1 ∨ labels.getD j 0 = -2) ∧
              (DBSCAN.expandLoop pts eps minPts (ci + 1)
                (labels.set i (ci + 1)) (DBSCAN.getNeighbors pts eps i) 0
                pts.length).getD j 0 = ci + 1) := by
          intro j
          by_cases hj : i = j
          · subst hj
            exact Or.inr ⟨Or.inr hs, fact1⟩
          · rcases heff.2 j with heq | ⟨hold, hnew⟩
            · rw [getD_set_other _ _ _ _ hj] at heq
              exact Or.inl heq
            · rw [getD_set_other _ _ _ _ hj] at hold
              exact Or.inr ⟨hold, hnew⟩
        have hlen1 : (DBSCAN.expandLoop pts eps minPts (ci + 1)
            (labels.set i (ci + 1)) (DBSCAN.getNeighbors pts eps i) 0
            pts.length).length = pts.length := by
          rw [heff.1, List.length_set]; exact hlen
        have hI := ih (DBSCAN.expandLoop pts eps minPts (ci + 1)
            (labels.set i (ci + 1)) (DBSCAN.getNeighbors pts eps i) 0
            pts.length) (ci + 1) hlen1 (by omega)
          (fun x hx => hidx x (List.mem_cons_of_mem i hx))
          (by
            intro j hjn
            rcases fact2 j with heq | ⟨_, heq⟩
            · rw [heq]
              rcases h3 j hjn with h | h | ⟨h, h'⟩
              · exact Or.inl h
              · exact Or.inr (Or.inl h)
              · exact Or.inr (Or.inr ⟨h, by omega⟩)
            · rw [heq]
              exact Or.inr (Or.inr ⟨by omega, le_refl _⟩))
          (by
            intro c hc1 hc2
            by_cases hceq : c = ci + 1
            · subst hceq
              exact ⟨i, hi, fact1⟩
            · obtain ⟨j, hjn, hjv⟩ := h4 c hc1 (by omega)
              refine ⟨j, hjn, ?_⟩
              rcases fact2 j with heq | ⟨hold, _⟩
              · rw [heq]; exact hjv
              · rw [hjv] at hold; omega)
        refine ⟨hI.1, le_trans (by omega) hI.2.1, ?_, ?_,
          hI.2.2.2.2.1, hI.2.2.2.2.2⟩
        · intro j hj
          refine hI.2.2.1 j ?_
          rcases fact2 j with heq | ⟨_, heq⟩ <;> rw [heq]
          · exact hj
          · omega
        · intro x hx
          rcases List.mem_cons.mp hx with hx | hx
          · subst hx
            exact hI.2.2.1 x (by rw [fact1]; omega)
          · exact hI.2.2.2.1 x hx
    · rw [if_pos hs]
      have hI := ih labels ci hlen hci
        (fun x hx => hidx x (List.mem_cons_of_mem i hx)) h3 h4
      refine ⟨hI.1, hI.2.1, hI.2.2.1, ?_, hI.2.2.2.2.1, hI.2.2.2.2.2⟩
      intro x hx
      rcases List.mem_cons.mp hx with hx | hx
      · subst hx
        exact hI.2.2.1 x hs
      · exact hI.2.2.2.1 x hx

/-- C7: for every point set, any epsilon > 0 and minPoints ≥ 1, after
dbscan returns no point retains the unvisited label −2: the label array
has one entry per point, the cluster count is non-negative, every in-range
entry differs from −2 and is either −1 (noise) or a cluster id in
[1, count], and every id from 1 up to the returned count is attained — so
ids are assigned consecutively from 1 and the count equals the largest
id assigned. -/
theorem c7_dbscan_total_labeling {α : Type} [LinearOrderedCommRing α]
    (pts : List (Pt α)) (eps : α) (minPts : ℕ)
    (heps : 0 < eps) (hmin : 1 ≤ minPts) :
    (DBSCAN.dbscan pts eps minPts).1.length = pts.length ∧
    0 ≤ (DBSCAN.dbscan pts eps minPts).2 ∧
    (∀ j, j < pts.length →
      (DBSCAN.dbscan pts eps minPts).1.getD j 0 ≠ -2) ∧
    (∀ j, j < pts.length →
      (DBSCAN.dbscan pts eps minPts).1.getD j 0 = -1 ∨
      (1 ≤ (DBSCAN.dbscan pts eps minPts).1.getD j 0 ∧
        (DBSCAN.dbscan pts eps minPts).1.getD j 0
          ≤ (DBSCAN.dbscan pts eps minPts).2)) ∧
    (∀ c : ℤ, 1 ≤ c → c ≤ (DBSCAN.dbscan pts eps minPts).2 →
      ∃ j, j < pts.length ∧
        (DBSCAN.dbscan pts eps minPts).1.getD j 0 = c) := by
  have hrep : ∀ j, j < pts.length →
      (List.replicate pts.length (-2 : ℤ)).getD j 0 = -2 := by
    intro j hj
    rw [List.getD_eq_getElem _ _ (by simpa using hj)]
    exact List.getElem_replicate _ _
  have hI := dbscanLoop_invariants pts eps minPts
    (List.range pts.length) (List.replicate pts.length (-2)) 0
    (List.length_replicate _ _) (le_refl 0)
    (fun i hx => List.mem_range.mp hx)
    (fun j hj => Or.inl (hrep j hj))
    (fun c hc1 hc2 => absurd (le_trans hc1 hc2) (by omega))
  rw [DBSCAN.dbscan]
  refine ⟨hI.1, hI.2.1, ?_, ?_, hI.2.2.2.2.2⟩
  · intro j hj
    exact hI.2.2.2.1 j (List.mem_range.mpr hj)
  · intro j hj
    rcases hI.2.2.2.2.1 j hj with h | h | h
    · exact absurd h (hI.2.2.2.1 j (List.mem_range.mpr hj))
    · exact Or.inl h
    · exact Or.inr h

/-- Witness: C7 at the one-point set (0, 0) over ℤ with eps 1, minPts 1. -/
theorem c7_dbscan_total_labeling_witness :
    (0 : ℤ) < 1 ∧ 1 ≤ 1 ∧
    ((DBSCAN.dbscan [(⟨0, 0⟩ : Pt ℤ)] 1 1).1.length
        = [(⟨0, 0⟩ : Pt ℤ)].length ∧
      0 ≤ (DBSCAN.dbscan [(⟨0, 0⟩ : Pt ℤ)] 1 1).2 ∧
      (∀ j, j < [(⟨0, 0⟩ : Pt ℤ)].length →
        (DBSCAN.dbscan [(⟨0, 0⟩ : Pt ℤ)] 1 1).1.getD j 0 ≠ -2) ∧
      (∀ j, j < [(⟨0, 0⟩ : Pt ℤ)].length →
        (DBSCAN.dbscan [(⟨0, 0⟩ : Pt ℤ)] 1 1).1.getD j 0 = -1 ∨
        (1 ≤ (DBSCAN.dbscan [(⟨0, 0⟩ : Pt ℤ)] 1 1).1.getD j 0 ∧
          (DBSCAN.dbscan [(⟨0, 0⟩ : Pt ℤ)] 1 1).1.getD j 0
            ≤ (DBSCAN.dbscan [(⟨0, 0⟩ : Pt ℤ)] 1 1).2)) ∧
      (∀ c : ℤ, 1 ≤ c → c ≤ (DBSCAN.dbscan [(⟨0, 0⟩ : Pt ℤ)] 1 1).2 →
        ∃ j, j < [(⟨0, 0⟩ : Pt ℤ)].length ∧
          (DBSCAN.dbscan [(⟨0, 0⟩ : Pt ℤ)] 1 1).1.getD j 0 = c)) :=
  ⟨by decide, by decide,
    c7_dbscan_total_labeling [(⟨0, 0⟩ : Pt ℤ)] 1 1 (by decide) (by decide)⟩

/-- headD is getD at index 0. -/
theorem headD_eq_getD {β : Type} (l : List β) (d : β) :
    l.headD d = l.getD 0 d := by
  cases l <;> rfl

/-- getD of a zipWith at an in-range index. -/
theorem getD_zipWith {β γ δ : Type} (f : β → γ → δ) (l1 : List β)
    (l2 : List γ) (j : ℕ) (d1 : β) (d2 : γ) (dd : δ)
    (h1 : j < l1.length) (h2 : j < l2.length) :
    (List.zipWith f l1 l2).getD j dd = f (l1.getD j d1) (l2.getD j d2) := by
  rw [List.getD_eq_getElem _ _ (by rw [List.length_zipWith]; omega),
    List.getElem_zipWith, List.getD_eq_getElem _ _ h1,
    List.getD_eq_getElem _ _ h2]

/-- getD of a map at an in-range index. -/
theorem getD_map_in {β γ : Type} (f : β → γ) (l : List β) (j : ℕ)
    (db : β) (dc : γ) (h : j < l.length) :
    (l.map f).getD j dc = f (l.getD j db) := by
  rw [List.getD_eq_getElem _ _ (by rw [List.length_map]; omega),
    List.getElem_map, List.getD_eq_getElem _ _ h]

/-- The forward fold of the perceptron component appends exactly the
layer-by-layer activation lists of fpAux to the accumulator. -/
theorem fp_foldl {α : Type} [LinearOrderedCommRing α] (func : α → α) :
    ∀ (Ls : List (MLP.Layer α)) (pre : List (List α)) (curr : List α),
      (Ls.foldl
        (fun (acc : List (List α) × List α) layer =>
          let z := layer.weights.zipWith
            (fun row b => MLP.neuronSum b row acc.2) layer.biases
          let curr := z.map func
          (acc.1 ++ [curr], curr))
        (pre, curr)).1 = pre ++ MLP.fpAux func curr Ls := by
  intro Ls
  induction Ls with
  | nil =>
    intro pre curr
    simp [MLP.fpAux]
  | cons L t ih =>
    intro pre curr
    rw [List.foldl_cons, MLP.fpAux, List.append_cons]
    exact ih _ _

/-- forwardPass returns the input activation followed by the fpAux
activations. -/
theorem forwardPass_eq_fpAux {α : Type} [LinearOrderedCommRing α]
    (func : α → α) (input : List α) (layers : List (MLP.Layer α)) :
    MLP.forwardPass func input layers
      = input :: MLP.fpAux func input layers := by
  rw [MLP.forwardPass]
  exact fp_foldl func layers [input] input

/-- The backpropagation fold over rows of the next weight matrix zipped
with the next delta equals the transposed-matrix application: the sum over
k of nextWeights[k][j] · nextDelta[k]. -/
theorem foldl_weights_sum {α : Type} [LinearOrderedCommRing α] (j : ℕ) :
    ∀ (ws : List (List α)) (ds : List α) (init : α),
      (ws.zip ds).foldl (fun s rd => s + rd.1.getD j 0 * rd.2) init
        = init + ∑ k ∈ Finset.range (min ws.length ds.length),
            (ws.getD k []).getD j 0 * ds.getD k 0 := by
  intro ws
  induction ws with
  | nil =>
    intro ds init
    simp
  | cons w t ih =>
    intro ds init
    cases ds with
    | nil => simp
    | cons d ds =>
      simp only [List.zip_cons_cons, List.foldl_cons]
      rw [ih]
      rw [List.length_cons, List.length_cons, Nat.succ_min_succ,
        Finset.sum_range_succ']
      simp only [List.getD_cons_succ, List.getD_cons_zero]
      ring

/-- One unfolding of fpAux at a layer. -/
theorem fpAux_cons {α : Type} [LinearOrderedCommRing α] (func : α → α)
    (curr : List α) (L : MLP.Layer α) (Ls : List (MLP.Layer α)) :
    MLP.fpAux func curr (L :: Ls)
      = ((L.weights.zipWith (fun row b => MLP.neuronSum b row curr)
            L.biases).map func)
        :: MLP.fpAux func
            ((L.weights.zipWith (fun row b => MLP.neuronSum b row curr)
              L.biases).map func) Ls := rfl

/-- computeDeltas at the output layer. -/
theorem computeDeltas_one {α : Type} [LinearOrderedCommRing α]
    (deriv : α → α) (target : List α) (L : MLP.Layer α) (aOut : List α)
    (aRest : List (List α)) :
    MLP.computeDeltas deriv target [L] (aOut :: aRest)
      = [aOut.zipWith (fun o t => (o - t) * deriv o) target] := rfl

/-- computeDeltas at a hidden layer: the current delta is built from the
next layer's weights and delta, prepended to the deltas of the remaining
layers. -/
theorem computeDeltas_cons2 {α : Type} [LinearOrderedCommRing α]
    (deriv : α → α) (target : List α) (L next : MLP.Layer α)
    (rest : List (MLP.Layer α)) (aCur : List α) (aRest : List (List α)) :
    MLP.computeDeltas deriv target (L :: next :: rest) (aCur :: aRest)
      = (aCur.enum.map (fun ja =>
          ((next.weights.zip
              ((MLP.computeDeltas deriv target (next :: rest)
                aRest).headD [])).foldl
            (fun s rd => s + rd.1.getD ja.1 0 * rd.2) 0) * deriv ja.2))
        :: MLP.computeDeltas deriv target (next :: rest) aRest := rfl

/-- Elementwise characterization of computeDeltas on the fpAux activations
of a shape-consistent network: deltas have one entry per layer with the
layer's output arity, the last delta is (output − target) · deriv(output)
elementwise, and every earlier delta is the transposed next weight matrix
applied to the next delta, times deriv of the layer's activation. -/
theorem computeDeltas_spec {α : Type} [LinearOrderedCommRing α]
    (func deriv : α → α) (target : List α) :
    ∀ (Ls : List (MLP.Layer α)) (curr : List α),
      0 < Ls.length →
      (∀ L ∈ Ls, L.biases.length = L.weights.length) →
      (∀ row ∈ (Ls.getD 0 ⟨[], []⟩).weights, row.length = curr.length) →
      (∀ l, l + 1 < Ls.length →
        ∀ row ∈ (Ls.getD (l + 1) ⟨[], []⟩).weights,
          row.length = (Ls.getD l ⟨[], []⟩).weights.length) →
      target.length = (Ls.getD (Ls.length - 1) ⟨[], []⟩).weights.length →
      (MLP.fpAux func curr Ls).length = Ls.length ∧
      (MLP.computeDeltas deriv target Ls
        (MLP.fpAux func curr Ls)).length = Ls.length ∧
      (∀ l, l < Ls.length →
        ((MLP.fpAux func curr Ls).getD l []).length
          = (Ls.getD l ⟨[], []⟩).weights.length) ∧
      (∀ l, l < Ls.length →
        ((MLP.computeDeltas deriv target Ls
            (MLP.fpAux func curr Ls)).getD l []).length
          = (Ls.getD l ⟨[], []⟩).weights.length) ∧
      (∀ j, j < target.length →
        ((MLP.computeDeltas deriv target Ls
            (MLP.fpAux func curr Ls)).getD (Ls.length - 1) []).getD j 0
          = (((MLP.fpAux func curr Ls).getD (Ls.length - 1) []).getD j 0
              - target.getD j 0)
            * deriv (((MLP.fpAux func curr Ls).getD
                (Ls.length - 1) []).getD j 0)) ∧
      (∀ l, l + 1 < Ls.length →
        ∀ j, j < (Ls.getD l ⟨[], []⟩).weights.length →
        ((MLP.computeDeltas deriv target Ls
            (MLP.fpAux func curr Ls)).getD l []).getD j 0
          = (∑ k ∈ Finset.range
                (Ls.getD (l + 1) ⟨[], []⟩).weights.length,
              ((Ls.getD (l + 1) ⟨[], []⟩).weights.getD k []).getD j 0
                * ((MLP.computeDeltas deriv target Ls
                    (MLP.fpAux func curr Ls)).getD (l + 1) []).getD k 0)
            * deriv (((MLP.fpAux func curr Ls).getD l []).getD j 0)) := by
  intro Ls
  induction Ls with
  | nil =>
    intro curr h0
    exact absurd h0 (by simp)
  | cons L t ih =>
    intro curr _ hsq hr0 hrS ht
    have hwlen : ((L.weights.zipWith
        (fun row b => MLP.neuronSum b row curr) L.biases).map func).length
        = L.weights.length := by
      rw [List.length_map, List.length_zipWith,
        hsq L (List.mem_cons_self L t), min_self]
    cases t with
    | nil =>
      -- single layer: only the output delta exists
      rw [fpAux_cons]
      rw [computeDeltas_one]
      have ht' : target.length = L.weights.length := ht
      refine ⟨rfl, rfl, ?_, ?_, ?_, fun l hl => absurd hl
        (by simp only [List.length_cons, List.length_nil]; omega)⟩
      · intro l hl
        have hl0 : l = 0 := by
          simp only [List.length_cons, List.length_nil] at hl
          omega
        subst hl0
        exact hwlen
      · intro l hl
        have hl0 : l = 0 := by
          simp only [List.length_cons, List.length_nil] at hl
          omega
        subst hl0
        simp only [List.getD_cons_zero]
        rw [List.length_zipWith, hwlen, ht', min_self]
      · intro j hj
        exact getD_zipWith (fun o t => (o - t) * deriv o)
          ((L.weights.zipWith (fun row b => MLP.neuronSum b row curr)
            L.biases).map func) target j 0 0 0
          (by rw [hwlen, ← ht']; exact hj) hj
    | cons next rest =>
      -- hidden layer in front of at least one more layer
      rw [fpAux_cons]
      rw [computeDeltas_cons2]
      have hIH := ih ((L.weights.zipWith
          (fun row b => MLP.neuronSum b row curr) L.biases).map func)
        (by simp)
        (fun M hM => hsq M (List.mem_cons_of_mem L hM))
        (by
          intro row hrow
          have h := hrS 0 (by simp) row (by simpa using hrow)
          rw [h]
          simp only [List.getD_cons_zero]
          rw [hwlen])
        (by
          intro l hl row hrow
          exact hrS (l + 1) (by simpa using Nat.succ_lt_succ hl) row
            (by simpa using hrow))
        (by
          rw [ht]
          simp only [List.length_cons, Nat.add_sub_cancel,
            List.getD_cons_succ])
      obtain ⟨hK0, hK1, hK2, hK3, hK4, hK5⟩ := hIH
      have hdh : ∀ j, j < L.weights.length →
          ((((L.weights.zipWith (fun row b => MLP.neuronSum b row curr)
              L.biases).map func).enum.map (fun ja =>
            ((next.weights.zip
                ((MLP.computeDeltas deriv target (next :: rest)
                  (MLP.fpAux func ((L.weights.zipWith
                    (fun row b => MLP.neuronSum b row curr)
                      L.biases).map func)
                    (next :: rest))).headD [])).foldl
              (fun s rd => s + rd.1.getD ja.1 0 * rd.2) 0)
              * deriv ja.2)).getD j 0)
          = (∑ k ∈ Finset.range next.weights.length,
              (next.weights.getD k []).getD j 0
                * ((MLP.computeDeltas deriv target (next :: rest)
                    (MLP.fpAux func ((L.weights.zipWith
                      (fun row b => MLP.neuronSum b row curr)
                        L.biases).map func)
                      (next :: rest))).getD 0 []).getD k 0)
            * deriv (((L.weights.zipWith
                (fun row b => MLP.neuronSum b row curr)
                  L.biases).map func).getD j 0) := by
        intro j hj
        have hj' : j < ((L.weights.zipWith
            (fun row b => MLP.neuronSum b row curr)
              L.biases).map func).length := by rw [hwlen]; exact hj
        rw [List.getD_eq_getElem _ _
          (by rw [List.length_map, List.enum_length]; exact hj')]
        rw [List.getElem_map, List.getElem_enum]
        rw [headD_eq_getD, foldl_weights_sum j, zero_add]
        have hdlen : ((MLP.computeDeltas deriv target (next :: rest)
            (MLP.fpAux func ((L.weights.zipWith
              (fun row b => MLP.neuronSum b row curr)
                L.biases).map func)
              (next :: rest))).getD 0 []).length
            = next.weights.length := by
          have := hK3 0 (by simp)
          simpa using this
        rw [hdlen, min_self]
        rw [List.getD_eq_getElem _ _ hj']
      refine ⟨?_, ?_, ?_, ?_, ?_, ?_⟩
      · simp only [List.length_cons, hK0]
      · simp only [List.length_cons, hK1]
      · intro l hl
        cases l with
        | zero =>
          simp only [List.getD_cons_zero]
          exact hwlen
        | succ m =>
          simp only [List.getD_cons_succ]
          exact hK2 m (by simpa using Nat.lt_of_succ_lt_succ hl)
      · intro l hl
        cases l with
        | zero =>
          simp only [List.getD_cons_zero, List.length_map,
            List.enum_length]
          rw [List.length_zipWith, hsq L (List.mem_cons_self L _),
            min_self]
        | succ m =>
          simp only [List.getD_cons_succ]
          exact hK3 m (by simpa using Nat.lt_of_succ_lt_succ hl)
      · intro j hj
        simp only [List.length_cons, Nat.add_sub_cancel,
          List.getD_cons_succ]
        have h4 := hK4 j hj
        simp only [List.length_cons, Nat.add_sub_cancel] at h4
        exact h4
      · intro l hl j hj
        cases l with
        | zero =>
          simp only [List.getD_cons_zero, List.getD_cons_succ] at hj ⊢
          exact hdh j hj
        | succ m =>
          simp only [List.getD_cons_succ] at hj ⊢
          exact hK5 m (by simpa using Nat.lt_of_succ_lt_succ hl) j hj

/-- getD of a zip at an in-range index. -/
theorem getD_zip_in {β γ : Type} (l1 : List β) (l2 : List γ) (j : ℕ)
    (d1 : β) (d2 : γ) (h1 : j < l1.length) (h2 : j < l2.length) :
    (l1.zip l2).getD j (d1, d2) = (l1.getD j d1, l2.getD j d2) := by
  rw [List.getD_eq_getElem _ _ (by rw [List.length_zip]; omega),
    List.getElem_zip, List.getD_eq_getElem _ _ h1,
    List.getD_eq_getElem _ _ h2]

/-- Elementwise characterization of the weight/bias update map of
stepNetwork: for layer l, output neuron j and input index i, the new
weight is w − lr · delta_j · activation_i and the new bias is
b − lr · delta_j. -/
theorem update_elem {α : Type} [LinearOrderedCommRing α] (lr : α)
    (layers N : List (MLP.Layer α)) (Ds As : List (List α))
    (hN : N = (layers.zip (Ds.zip As)).map
      (fun t =>
        { weights := (t.1.weights.zip t.2.1).map
            (fun rd => rd.1.zipWith (fun w a => w - lr * rd.2 * a) t.2.2),
          biases := t.1.biases.zipWith (fun b d => b - lr * d) t.2.1 }))
    (hD : Ds.length = layers.length)
    (hA : layers.length ≤ As.length)
    (hDl : ∀ l, l < layers.length →
      (Ds.getD l []).length = (layers.getD l ⟨[], []⟩).weights.length)
    (hsq : ∀ l, l < layers.length →
      (layers.getD l ⟨[], []⟩).biases.length
        = (layers.getD l ⟨[], []⟩).weights.length)
    (hAl : ∀ l, l < layers.length →
      ∀ j, j < (layers.getD l ⟨[], []⟩).weights.length →
      ((layers.getD l ⟨[], []⟩).weights.getD j []).length
        ≤ (As.getD l []).length) :
    N.length = layers.length ∧
    (∀ l, l < layers.length →
      ∀ j, j < (layers.getD l ⟨[], []⟩).weights.length →
      ∀ i, i < ((layers.getD l ⟨[], []⟩).weights.getD j []).length →
      ((N.getD l ⟨[], []⟩).weights.getD j []).getD i 0
        = ((layers.getD l ⟨[], []⟩).weights.getD j []).getD i 0
          - lr * (Ds.getD l []).getD j 0 * (As.getD l []).getD i 0) ∧
    (∀ l, l < layers.length →
      ∀ j, j < (layers.getD l ⟨[], []⟩).biases.length →
      (N.getD l ⟨[], []⟩).biases.getD j 0
        = (layers.getD l ⟨[], []⟩).biases.getD j 0
          - lr * (Ds.getD l []).getD j 0) := by
  have hNl : ∀ l, l < layers.length →
      N.getD l ⟨[], []⟩ =
        { weights := ((layers.getD l ⟨[], []⟩).weights.zip
              (Ds.getD l [])).map
            (fun rd => rd.1.zipWith (fun w a => w - lr * rd.2 * a)
              (As.getD l [])),
          biases := (layers.getD l ⟨[], []⟩).biases.zipWith
            (fun b d => b - lr * d) (Ds.getD l []) } := by
    intro l hl
    rw [hN]
    rw [List.getD_eq_getElem _ _ (by
      rw [List.length_map, List.length_zip, List.length_zip, hD]
      omega)]
    rw [List.getElem_map, List.getElem_zip, List.getElem_zip]
    rw [List.getD_eq_getElem _ _ hl,
      List.getD_eq_getElem _ _ (show l < Ds.length by omega),
      List.getD_eq_getElem _ _ (show l < As.length by omega)]
  refine ⟨?_, ?_, ?_⟩
  · rw [hN, List.length_map, List.length_zip, List.length_zip, hD]
    omega
  · intro l hl j hj i hi
    rw [hNl l hl]
    show ((((layers.getD l ⟨[], []⟩).weights.zip (Ds.getD l [])).map
      (fun rd => rd.1.zipWith (fun w a => w - lr * rd.2 * a)
        (As.getD l []))).getD j []).getD i 0 = _
    rw [getD_map_in _ _ j ([], 0) [] (by
      rw [List.length_zip, hDl l hl]
      omega)]
    rw [getD_zip_in _ _ j [] 0 hj (by rw [hDl l hl]; exact hj)]
    exact getD_zipWith (fun w a =>
        w - lr * ((Ds.getD l []).getD j 0) * a)
      ((layers.getD l ⟨[], []⟩).weights.getD j []) (As.getD l []) i 0 0 0
      hi (lt_of_lt_of_le hi (hAl l hl j hj))
  · intro l hl j hj
    rw [hNl l hl]
    show ((layers.getD l ⟨[], []⟩).biases.zipWith
      (fun b d => b - lr * d) (Ds.getD l [])).getD j 0 = _
    exact getD_zipWith (fun b d => b - lr * d)
      ((layers.getD l ⟨[], []⟩).biases) (Ds.getD l []) j 0 0 0 hj
      (by rw [hDl l hl, ← hsq l hl]; exact hj)

/-- C6: one training step of the perceptron/MLP engine on a
shape-consistent network of dense layers computes the output-layer delta
elementwise as (output − target) · deriv(output), backpropagates each
hidden layer's delta as the next layer's transposed weight matrix applied
to the next delta, multiplied elementwise by deriv of the current
activation, and updates every weight by w − lr · delta_j · input_i and
every bias by b − lr · delta_j, the derivative being taken as a function
of the layer's output value and input_i ranging over the layer's input
activations. -/
theorem c6_mlp_backprop_step {α : Type} [LinearOrderedCommRing α]
    (func deriv : α → α) (lr : α) (input target : List α)
    (layers : List (MLP.Layer α))
    (hL : 0 < layers.length)
    (hsq : ∀ L ∈ layers, L.biases.length = L.weights.length)
    (hr0 : ∀ row ∈ (layers.getD 0 ⟨[], []⟩).weights,
      row.length = input.length)
    (hrS : ∀ l, l + 1 < layers.length →
      ∀ row ∈ (layers.getD (l + 1) ⟨[], []⟩).weights,
        row.length = (layers.getD l ⟨[], []⟩).weights.length)
    (ht : target.length
      = (layers.getD (layers.length - 1) ⟨[], []⟩).weights.length) :
    (MLP.forwardPass func input layers).getD 0 [] = input ∧
    (MLP.forwardPass func input layers).length = layers.length + 1 ∧
    (MLP.computeDeltas deriv target layers
      ((MLP.forwardPass func input layers).drop 1)).length
        = layers.length ∧
    (∀ j, j < target.length →
      ((MLP.computeDeltas deriv target layers
          ((MLP.forwardPass func input layers).drop 1)).getD
        (layers.length - 1) []).getD j 0
        = (((MLP.forwardPass func input layers).getD
              layers.length []).getD j 0 - target.getD j 0)
          * deriv (((MLP.forwardPass func input layers).getD
              layers.length []).getD j 0)) ∧
    (∀ l, l + 1 < layers.length →
      ∀ j, j < (layers.getD l ⟨[], []⟩).weights.length →
      ((MLP.computeDeltas deriv target layers
          ((MLP.forwardPass func input layers).drop 1)).getD l []).getD j 0
        = (∑ k ∈ Finset.range
              (layers.getD (l + 1) ⟨[], []⟩).weights.length,
            ((layers.getD (l + 1) ⟨[], []⟩).weights.getD k []).getD j 0
              * ((MLP.computeDeltas deriv target layers
                  ((MLP.forwardPass func input layers).drop 1)).getD
                    (l + 1) []).getD k 0)
          * deriv (((MLP.forwardPass func input layers).getD
              (l + 1) []).getD j 0)) ∧
    (MLP.stepNetwork func deriv lr input target layers).length
      = layers.length ∧
    (∀ l, l < layers.length →
      ∀ j, j < (layers.getD l ⟨[], []⟩).weights.length →
      ∀ i, i < ((layers.getD l ⟨[], []⟩).weights.getD j []).length →
      (((MLP.stepNetwork func deriv lr input target layers).getD l
          ⟨[], []⟩).weights.getD j []).getD i 0
        = ((layers.getD l ⟨[], []⟩).weights.getD j []).getD i 0
          - lr * ((MLP.computeDeltas deriv target layers
              ((MLP.forwardPass func input layers).drop 1)).getD l
                []).getD j 0
            * ((MLP.forwardPass func input layers).getD l []).getD i 0) ∧
    (∀ l, l < layers.length →
      ∀ j, j < (layers.getD l ⟨[], []⟩).biases.length →
      ((MLP.stepNetwork func deriv lr input target layers).getD l
          ⟨[], []⟩).biases.getD j 0
        = (layers.getD l ⟨[], []⟩).biases.getD j 0
          - lr * ((MLP.computeDeltas deriv target layers
              ((MLP.forwardPass func input layers).drop 1)).getD l
                []).getD j 0) := by
  have hA := forwardPass_eq_fpAux func input layers
  have hdrop : (MLP.forwardPass func input layers).drop 1
      = MLP.fpAux func input layers := by
    rw [hA]
    rfl
  obtain ⟨hK0, hK1, hK2, hK3, hK4, hK5⟩ :=
    computeDeltas_spec func deriv target layers input hL hsq hr0 hrS ht
  have hN : MLP.stepNetwork func deriv lr input target layers
      = (layers.zip ((MLP.computeDeltas deriv target layers
          ((MLP.forwardPass func input layers).drop 1)).zip
            (MLP.forwardPass func input layers))).map
        (fun t =>
          { weights := (t.1.weights.zip t.2.1).map
              (fun rd => rd.1.zipWith (fun w a => w - lr * rd.2 * a)
                t.2.2),
            biases := t.1.biases.zipWith (fun b d => b - lr * d)
              t.2.1 }) := rfl
  rw [hdrop, hA] at hN
  have hupd := update_elem lr layers
    (MLP.stepNetwork func deriv lr input target layers)
    (MLP.computeDeltas deriv target layers (MLP.fpAux func input layers))
    (input :: MLP.fpAux func input layers) hN hK1
    (by rw [List.length_cons, hK0]; omega)
    hK3
    (by
      intro l hl
      have hmem : layers.getD l ⟨[], []⟩ ∈ layers := by
        rw [List.getD_eq_getElem _ _ hl]
        exact List.getElem_mem _
      exact hsq _ hmem)
    (by
      intro l hl j hj
      have hrmem : (layers.getD l ⟨[], []⟩).weights.getD j []
          ∈ (layers.getD l ⟨[], []⟩).weights := by
        rw [List.getD_eq_getElem _ _ hj]
        exact List.getElem_mem _
      cases l with
      | zero =>
        simp only [List.getD_cons_zero]
        exact le_of_eq (hr0 _ hrmem)
      | succ m =>
        simp only [List.getD_cons_succ]
        rw [hK2 m (by omega)]
        exact le_of_eq (hrS m hl _ hrmem))
  obtain ⟨n, hn⟩ : ∃ n, layers.length = n + 1 :=
    ⟨layers.length - 1, by omega⟩
  rw [hdrop, hA]
  refine ⟨rfl, by rw [List.length_cons, hK0], hK1, ?_, ?_,
    hupd.1, hupd.2.1, hupd.2.2⟩
  · intro j hj
    have h := hK4 j hj
    rw [hn] at h ⊢
    simp only [Nat.add_sub_cancel] at h ⊢
    rw [List.getD_cons_succ]
    exact h
  · intro l hl j hj
    rw [List.getD_cons_succ]
    exact hK5 l hl j hj

/-- Witness: C6 at the one-layer network with weights [[2]], bias [3],
identity activation with unit derivative, input [1], target [0] over ℤ. -/
theorem c6_mlp_backprop_step_witness :
    (0 < ([(⟨[[2]], [3]⟩ : MLP.Layer ℤ)]).length) ∧
    (∀ L ∈ [(⟨[[2]], [3]⟩ : MLP.Layer ℤ)],
      L.biases.length = L.weights.length) ∧
    (∀ row ∈ (([(⟨[[2]], [3]⟩ : MLP.Layer ℤ)]).getD 0 ⟨[], []⟩).weights,
      row.length = ([(1 : ℤ)]).length) ∧
    (([(0 : ℤ)]).length
      = (([(⟨[[2]], [3]⟩ : MLP.Layer ℤ)]).getD
          (([(⟨[[2]], [3]⟩ : MLP.Layer ℤ)]).length - 1)
            ⟨[], []⟩).weights.length) ∧
    (MLP.computeDeltas (fun _ => (1 : ℤ)) [0]
      [(⟨[[2]], [3]⟩ : MLP.Layer ℤ)]
      ((MLP.forwardPass (fun x => x) [1]
        [(⟨[[2]], [3]⟩ : MLP.Layer ℤ)]).drop 1)).length
      = ([(⟨[[2]], [3]⟩ : MLP.Layer ℤ)]).length :=
  ⟨by decide, by decide, by decide, by decide,
    (c6_mlp_backprop_step (fun x => x) (fun _ => (1 : ℤ)) 1 [1] [0]
      [(⟨[[2]], [3]⟩ : MLP.Layer ℤ)] (by decide) (by decide) (by decide)
      (fun l hl => absurd hl (by simp)) (by decide)).2.2.1⟩

end MLVIS